import Mathlib

/-!
Verification of `scrapy/utils/iterators.py` (pattern-based XML iteration,
TagReplacer, incremental XML iteration, CSV iteration) against its
natural-language specification.  Python text is embedded as `String` /
`List Char`, Python bytes as `List Nat` (byte values), and fallible
operations return `Except PyErr`.
-/

/-- Whitespace as matched by Python's `\s` on `str` patterns
(ASCII whitespace plus the common Unicode whitespace code points). -/
def pyIsSpace (c : Char) : Bool :=
  c = ' ' || c = '\t' || c = '\n' || c = '\r' || c = '\x0b' || c = '\x0c' ||
  c = '\x1c' || c = '\x1d' || c = '\x1e' || c = '\x1f' || c = '\x85' || c = '\xa0' ||
  c = '\u1680' || c = '\u2000' || c = '\u2001' || c = '\u2002' || c = '\u2003' ||
  c = '\u2004' || c = '\u2005' || c = '\u2006' || c = '\u2007' || c = '\u2008' ||
  c = '\u2009' || c = '\u200a' || c = '\u2028' || c = '\u2029' || c = '\u202f' ||
  c = '\u205f' || c = '\u3000'

/-- Word characters as matched by `\w` (restricted to the ASCII subset
`[a-zA-Z0-9_]`; attribute names in the embedded regexes are ASCII). -/
def isWordCh (c : Char) : Bool :=
  ('a' ≤ c && c ≤ 'z') || ('A' ≤ c && c ≤ 'Z') || ('0' ≤ c && c ≤ '9') || c = '_'

/-- Characters allowed by the tag-name character class `[a-z0-9-:_]`
of `TagReplacer._validate_tag_name` (lowercase alphanumerics, hyphen,
colon, underscore; the hyphen after the `0-9` range is literal). -/
def isTagChar (c : Char) : Bool :=
  ('a' ≤ c && c ≤ 'z') || ('0' ≤ c && c ≤ '9') || c = '-' || c = ':' || c = '_'

/-- Boolean prefix test on character lists (Python regex literal-text
matching at a position). -/
def pfx (a : List Char) (l : List Char) : Bool :=
  match a with
  | [] => true
  | c :: cs =>
    match l with
    | [] => false
    | d :: ds => (c == d) && pfx cs ds

/-- Index of the first occurrence of `pat` as a contiguous sublist of `s`. -/
def firstIdx (pat : List Char) : List Char → Option Nat
  | [] => if pat.isEmpty then some 0 else none
  | c :: t => if pfx pat (c :: t) then some 0 else (firstIdx pat t).map (· + 1)

/-- `pat` occurs as a contiguous sublist of `s`. -/
def occursIn (pat s : List Char) : Bool := (firstIdx pat s).isSome

/-- Python `str.strip()` of leading whitespace. -/
def pyLstrip (s : List Char) : List Char := s.dropWhile pyIsSpace

/-- Python `str.strip()` (both ends). -/
def pyStrip (s : List Char) : List Char :=
  ((s.dropWhile pyIsSpace).reverse.dropWhile pyIsSpace).reverse

/-- UTF-8 encoding of a single character (Python `str.encode('utf-8')`,
one scalar value). -/
def utf8EncodeChar (c : Char) : List Nat :=
  let v := c.toNat
  if v < 0x80 then [v]
  else if v < 0x800 then [0xC0 + v / 64, 0x80 + v % 64]
  else if v < 0x10000 then
    [0xE0 + v / 4096, 0x80 + (v / 64) % 64, 0x80 + v % 64]
  else
    [0xF0 + v / 0x40000, 0x80 + (v / 4096) % 64, 0x80 + (v / 64) % 64, 0x80 + v % 64]

/-- UTF-8 encoding of a string as a list of byte values. -/
def utf8Encode (s : String) : List Nat := (s.data.map utf8EncodeChar).flatten

/-- One UTF-8 sequence at the head of the byte list (Python strict
`bytes.decode('utf-8')` semantics): returns the decoded scalar value and
the number of bytes consumed, rejecting invalid lead or continuation
bytes, truncated sequences, overlong forms, surrogates and values above
`0x10FFFF`. -/
def utf8DecodeOne : List Nat → Option (Nat × Nat)
  | [] => none
  | b :: rest =>
    if b < 0x80 then some (b, 1)
    else if b < 0xC2 then none
    else if b < 0xE0 then
      match rest with
      | b1 :: _ =>
        if 0x80 ≤ b1 ∧ b1 < 0xC0 then some ((b - 0xC0) * 64 + (b1 - 0x80), 2) else none
      | [] => none
    else if b < 0xF0 then
      match rest with
      | b1 :: b2 :: _ =>
        if (0x80 ≤ b1 ∧ b1 < 0xC0) ∧ (0x80 ≤ b2 ∧ b2 < 0xC0) then
          let v := (b - 0xE0) * 4096 + (b1 - 0x80) * 64 + (b2 - 0x80)
          if v < 0x800 ∨ (0xD800 ≤ v ∧ v < 0xE000) then none else some (v, 3)
        else none
      | _ => none
    else if b < 0xF5 then
      match rest with
      | b1 :: b2 :: b3 :: _ =>
        if (0x80 ≤ b1 ∧ b1 < 0xC0) ∧ (0x80 ≤ b2 ∧ b2 < 0xC0) ∧ (0x80 ≤ b3 ∧ b3 < 0xC0) then
          let v := (b - 0xF0) * 0x40000 + (b1 - 0x80) * 4096 + (b2 - 0x80) * 64 + (b3 - 0x80)
          if v < 0x10000 ∨ 0x110000 ≤ v then none else some (v, 4)
        else none
      | _ => none
    else none

/-- Strict UTF-8 decoding loop: one sequence at a time; the fuel is at
least the byte count and decreases with every sequence consumed. -/
def utf8DecodeGo : Nat → List Nat → Option (List Char)
  | _, [] => some []
  | 0, _ :: _ => none
  | f + 1, b :: rest =>
    match utf8DecodeOne (b :: rest) with
    | none => none
    | some (v, len) => (utf8DecodeGo f ((b :: rest).drop len)).map (Char.ofNat v :: ·)

/-- Strict UTF-8 decoding of a byte list to a string. -/
def utf8Decode (b : List Nat) : Option String := (utf8DecodeGo b.length b).map String.mk

/-- Error kinds raised by the embedded functions, mirroring the Python
exception classes that appear in `iterators.py` (`TypeError`,
`ValueError`, `UnicodeDecodeError` from `bytes.decode`, and the
`AttributeError` of accessing `.text` on a non-text response). -/
inductive PyErr where
  | typeError
  | valueError
  | decodeError
  | attributeError
deriving DecidableEq, Repr

deriving instance DecidableEq for Except

/-- Document sources accepted by the extractors: unicode text, raw bytes,
a `TextResponse` (decoded text, declared encoding, body bytes), a plain
non-text `Response` (body bytes only), or any unsupported value
(`Obj.other`). -/
inductive Obj where
  | str (s : String)
  | bytes (b : List Nat)
  | textResponse (text : String) (encoding : String) (body : List Nat)
  | rawResponse (body : List Nat)
  | other
deriving DecidableEq, Repr

/-- Embedding of `_body_or_str(obj, unicode=True)`: a `TextResponse`
contributes its decoded `text`, a plain response's body and raw bytes are
decoded with hard-coded UTF-8, text passes through, and any other shape
raises `TypeError`. -/
def bodyOrStr (obj : Obj) : Except PyErr String :=
  match obj with
  | .textResponse t _ _ => .ok t
  | .rawResponse b =>
    match utf8Decode b with
    | some t => .ok t
    | none => .error .decodeError
  | .str s => .ok s
  | .bytes b =>
    match utf8Decode b with
    | some t => .ok t
    | none => .error .decodeError
  | .other => .error .typeError


/-- Embedding of `TagReplacer._validate_tag_name`:
`re.match(r"^[a-z0-9-:_]{1,}$", tag)`.  Python's `$` also matches just
before a single trailing newline, so a valid core followed by one `'\n'`
is accepted as well. -/
def validateTagName (tag : String) : Bool :=
  if tag.data.getLast? = some '\n' then
    !tag.data.dropLast.isEmpty && tag.data.dropLast.all isTagChar
  else
    !tag.data.isEmpty && tag.data.all isTagChar

/-- One step of the lookbehind `(?<!\\<\/)` of `TagReplacer._sub_tags`:
in the raw pattern this is the three literal characters `\`, `<`, `/`, so
a match is blocked only when the text just before the match position is
backslash, `<`, `/` (given here reversed, most recent character first). -/
def lbBlocked (pre : List Char) : Bool :=
  match pre with
  | a :: b :: c :: _ => a == '/' && b == '<' && c == '\\'
  | _ => false

/-- The head of `l` is the character `c`. -/
def headIs (c : Char) (l : List Char) : Bool :=
  match l with
  | [] => false
  | d :: _ => d == c

/-- Backtracking matcher for the lookahead `(?=((\s+\w+=".+")\s*)*>)` of
`TagReplacer._sub_tags` (flags are 0, so `.` excludes newline).  Mode
`true` is the start of an iteration-or-`>` position; mode `false` is
inside `.+"` of a quoted attribute value, trying every split.  Fuel
decreases on every call; each call also consumes at least one character,
so `length + 1` fuel always suffices. -/
def laFn : Nat → Bool → List Char → Bool
  | 0, _, _ => false
  | f + 1, true, s =>
    headIs '>' s ||
    (decide ((s.dropWhile pyIsSpace).length < s.length) &&
     (decide (((s.dropWhile pyIsSpace).dropWhile isWordCh).length <
        (s.dropWhile pyIsSpace).length) &&
      (match (s.dropWhile pyIsSpace).dropWhile isWordCh with
       | d :: e :: s3 => (d == '=') && (e == '"') && laFn f false s3
       | _ => false)))
  | f + 1, false, s =>
    match s with
    | [] => false
    | c :: t =>
      (c != '\n') &&
      ((match t with
        | d :: r => (d == '"') && (headIs '>' (r.dropWhile pyIsSpace) || laFn f true r)
        | [] => false) ||
       laFn f false t)

/-- The lookahead of `TagReplacer._sub_tags`, applied at a match
position. -/
def lookahead (s : List Char) : Bool := laFn (s.length + 1) true s

/-- Scanner of `re.sub(old_tag_pattern, new_tag, text, re.MULTILINE)`:
left-to-right scan over the original text (`pre` is the reversed original
prefix, used by the lookbehind), replacing at most `count` matches; a
pending `skip` covers the tail of an already-replaced occurrence. -/
def subGo (old new : List Char) : List Char → List Char → Nat → Nat → List Char
  | [], _, _, _ => []
  | c :: t, pre, count, k + 1 => subGo old new t (c :: pre) count k
  | c :: t, pre, count, 0 =>
    if 0 < count && pfx old (c :: t) && !lbBlocked pre &&
        lookahead ((c :: t).drop old.length) then
      new ++ subGo old new t (c :: pre) (count - 1) (old.length - 1)
    else
      c :: subGo old new t (c :: pre) count 0

/-- Embedding of `TagReplacer._sub_tags`.  The fourth positional argument
of `re.sub` is `count`, and the source passes `re.MULTILINE` (whose value
is 8) there, so at most 8 occurrences are replaced and no flag is set. -/
def subTags (old new text : String) : String :=
  ⟨subGo old.data new.data text.data [] 8 0⟩

/-- Embedding of `TagReplacer._decode`: a response contributes `obj.text`
(raising `AttributeError` for a non-text response, whose `.text` is
unavailable — the `Response` class itself is outside `src/`), text passes
through, bytes are decoded with the default encoding `'utf-8'`, and any
other shape raises `TypeError`. -/
def trDecode (obj : Obj) : Except PyErr String :=
  match obj with
  | .textResponse t _ _ => .ok t
  | .rawResponse _ => .error .attributeError
  | .str s => .ok s
  | .bytes b =>
    match utf8Decode b with
    | some t => .ok t
    | none => .error .decodeError
  | .other => .error .typeError

/-- Embedding of `TagReplacer._encode_as`: the result keeps the shape of
the input; `Response.replace(body=...)` (outside `src/`) is modelled from
the spec as re-wrapping the response with the replaced body. -/
def trEncodeAs (newBody : String) (oldObj : Obj) : Obj :=
  match oldObj with
  | .textResponse _ e _ => .textResponse newBody e (utf8Encode newBody)
  | .rawResponse _ => .rawResponse (utf8Encode newBody)
  | .str _ => .str newBody
  | .bytes _ => .bytes (utf8Encode newBody)
  | .other => .other

/-- Embedding of `TagReplacer.replace`: validate both tag names (raising
`ValueError` before any rewriting), decode, substitute, re-encode. -/
def tagReplace (obj : Obj) (old new : String) : Except PyErr Obj :=
  if !validateTagName old then .error .valueError
  else if !validateTagName new then .error .valueError
  else (trDecode obj).map (fun t => trEncodeAs (subTags old new t) obj)

example : subTags "a:b" "a-b" "<a:b>x</a:b>" = "<a-b>x</a-b>" := by decide
example : subTags "a:b" "a-b" "<a:b foo=\"1\"  bar=\"2\">x</a:b>" =
    "<a-b foo=\"1\"  bar=\"2\">x</a-b>" := by decide
example : subTags "a" "b" "a>a> a no" = "b>b> a no" := by decide

/-- A character matched by the class `[\s>]` right after the node name in
xmliter's node pattern `<nodename[\s>].*?</nodename>`. -/
def isStartCh (c : Char) : Bool := c = '>' || pyIsSpace c

/-- The literal end tag `</nodename>` of xmliter's node pattern
(`nodename` is inserted through `re.escape`, hence literal). -/
def endTagOf (name : List Char) : List Char := '<' :: '/' :: (name ++ ['>'])

/-- The head character, if any, is in the class `[\s>]`. -/
def headStartCh : List Char → Bool
  | [] => false
  | d :: _ => isStartCh d

/-- Attempted match of `<nodename[\s>].*?</nodename>` (with `re.DOTALL`)
at the head of `text`: the literal `<nodename`, one `[\s>]` character,
then the lazy `.*?` runs to the earliest `</nodename>`.  Returns the
total match length. -/
def tryMatchLen (name : List Char) (text : List Char) : Option Nat :=
  match text with
  | [] => none
  | c :: rest =>
    if c == '<' && pfx name rest && headStartCh (rest.drop name.length) then
      (firstIdx (endTagOf name) (rest.drop name.length).tail).map
        (fun k => 2 + name.length + k + (endTagOf name).length)
    else none

/-- Scanner of `r.finditer(text)` for xmliter's node pattern: positions
are tried left to right, matches do not overlap, and scanning resumes
after each match (`skip` counts the remaining characters of the current
match). -/
def scanGo (name : List Char) : List Char → Nat → List (List Char)
  | [], _ => []
  | _ :: t, k + 1 => scanGo name t k
  | c :: t, 0 =>
    match tryMatchLen name (c :: t) with
    | some n => (c :: t).take n :: scanGo name t (n - 1)
    | none => scanGo name t 0

/-- All matches of xmliter's node pattern in document order. -/
def xmlScan (name text : List Char) : List (List Char) := scanGo name text 0

/-- Attempted match of the document-header pattern `<\?xml[^>]+>\s*` at
the head of `s`; the returned text is already `.strip()`-ed, so the
trailing `\s*` is dropped. -/
def xmlDeclAt (s : List Char) : Option (List Char) :=
  if pfx ('<' :: '?' :: 'x' :: 'm' :: 'l' :: []) s then
    let r := s.drop 5
    let body := r.takeWhile (· ≠ '>')
    if body.isEmpty then none
    else
      match r.drop body.length with
      | '>' :: _ => some ('<' :: '?' :: 'x' :: 'm' :: 'l' :: (body ++ ['>']))
      | _ => none
  else none

/-- First match of the document-header pattern anywhere in the text
(`re.search(DOCUMENT_HEADER_RE, text)`). -/
def findXmlDecl : List Char → Option (List Char)
  | [] => none
  | c :: t =>
    match xmlDeclAt (c :: t) with
    | some g => some g
    | none => findXmlDecl t

/-- xmliter's `document_header`: the stripped first `<?xml …>` match, or
the empty string. -/
def documentHeader (text : List Char) : List Char := (findXmlDecl text).getD []

/-- Attempted match of `HEADER_END_RE` = `<\s*/nodename\s*>` at the head
of `s`, returning the match length. -/
def matchCloseAt (name : List Char) (s : List Char) : Option Nat :=
  match s with
  | '<' :: r =>
    let w1 := r.takeWhile pyIsSpace
    match r.drop w1.length with
    | '/' :: r2 =>
      if pfx name r2 then
        let r3 := r2.drop name.length
        let w2 := r3.takeWhile pyIsSpace
        match r3.drop w2.length with
        | '>' :: _ => some (1 + w1.length + 1 + name.length + w2.length + 1)
        | _ => none
      else none
    | _ => none
  | _ => none

/-- Modelled from the spec: `re_rsearch` (from `scrapy.utils.python`, not
under `src/`) locates the last match of `HEADER_END_RE` — "locate the
last closing tag that matches `</nodeName>` (reverse search)".  Returns
the end offset of that last match. -/
def lastCloseEnd (name : List Char) : List Char → Option Nat
  | [] => none
  | c :: t =>
    match lastCloseEnd name t with
    | some e => some (e + 1)
    | none => matchCloseAt name (c :: t)

/-- xmliter's `header_end`: the stripped text after the last
`</nodename>` match, or the empty string. -/
def headerEndOf (name text : List Char) : List Char :=
  match lastCloseEnd name text with
  | some e => pyStrip (text.drop e)
  | none => []

/-- Attempted match of `END_TAG_RE` = `<\s*/([^\s>]+)\s*>` at the head of
`s`, returning the captured tag name and the match length. -/
def endTagNameAt (s : List Char) : Option (List Char × Nat) :=
  match s with
  | '<' :: r =>
    let w1 := r.takeWhile pyIsSpace
    match r.drop w1.length with
    | '/' :: r2 =>
      let tn := r2.takeWhile (fun c => !pyIsSpace c && c ≠ '>')
      if tn.isEmpty then none
      else
        let r3 := r2.drop tn.length
        let w2 := r3.takeWhile pyIsSpace
        match r3.drop w2.length with
        | '>' :: _ => some (tn, 1 + w1.length + 1 + tn.length + w2.length + 1)
        | _ => none
    | _ => none
  | _ => none

/-- `re.findall(END_TAG_RE, header_end)`: all captured closing-tag names,
left to right, non-overlapping. -/
def findallEndTags : List Char → Nat → List (List Char)
  | [], _ => []
  | _ :: t, k + 1 => findallEndTags t k
  | c :: t, 0 =>
    match endTagNameAt (c :: t) with
    | some (tn, len) => tn :: findallEndTags t (len - 1)
    | none => findallEndTags t 0

/-- Length of `[^>]*>` at the head of `s` (the greedy non-`>` run must be
followed by `>`), as used at the end of the namespace-search pattern. -/
def gtRun (s : List Char) : Option Nat :=
  let run := s.takeWhile (· ≠ '>')
  if run.length < s.length then some (run.length + 1) else none

/-- Length of `.*?xmlns[:=][^>]*>` at the head of `s` (with `re.S`, so
the lazy `.*?` may cross newlines; the shortest completable prefix
wins). -/
def xmlnsTail : List Char → Option Nat
  | [] => none
  | c :: t =>
    if pfx ('x' :: 'm' :: 'l' :: 'n' :: 's' :: []) (c :: t) then
      match (c :: t).drop 5 with
      | d :: r =>
        if d = ':' ∨ d = '=' then
          match gtRun r with
          | some g => some (6 + g)
          | none => (xmlnsTail t).map (· + 1)
        else (xmlnsTail t).map (· + 1)
      | [] => none
    else (xmlnsTail t).map (· + 1)

/-- Attempted match of `<\s*tagname.*?xmlns[:=][^>]*>` at the head of
`s` (the tag name is interpolated unescaped in the source; tag names
captured from real documents carry no metacharacters, so it is matched
literally here), returning the full matched text. -/
def nsMatchAt (tagname s : List Char) : Option (List Char) :=
  match s with
  | '<' :: r =>
    let w1 := r.takeWhile pyIsSpace
    let r2 := r.drop w1.length
    if pfx tagname r2 then
      match xmlnsTail (r2.drop tagname.length) with
      | some tl => some ('<' :: (w1 ++ tagname ++ (r2.drop tagname.length).take tl))
      | none => none
    else none
  | _ => none

/-- `re.search` for the namespace-carrying opening tag: earliest start
position wins. -/
def nsSearch (tagname : List Char) : List Char → Option (List Char)
  | [] => none
  | c :: t =>
    match nsMatchAt tagname (c :: t) with
    | some m => some m
    | none => nsSearch tagname t

/-- Attempted match of `NAMESPACE_RE` = `((xmlns[:A-Za-z]*)=[^>\s]+)` at
the head of `s`: returns (full declaration, key `xmlns…`, length). -/
def nsDeclAt (s : List Char) : Option (List Char × List Char × Nat) :=
  if pfx ('x' :: 'm' :: 'l' :: 'n' :: 's' :: []) s then
    let r := s.drop 5
    let run := r.takeWhile (fun c => c = ':' || ('A' ≤ c && c ≤ 'Z') || ('a' ≤ c && c ≤ 'z'))
    match r.drop run.length with
    | '=' :: r2 =>
      let v := r2.takeWhile (fun c => !pyIsSpace c && c ≠ '>')
      if v.isEmpty then none
      else
        let key := 'x' :: 'm' :: 'l' :: 'n' :: 's' :: run
        some (key ++ '=' :: v, key, 5 + run.length + 1 + v.length)
    | _ => none
  else none

/-- `re.findall(NAMESPACE_RE, tag)`: all (full, key) capture pairs. -/
def findallNs : List Char → Nat → List (List Char × List Char)
  | [], _ => []
  | _ :: t, k + 1 => findallNs t k
  | c :: t, 0 =>
    match nsDeclAt (c :: t) with
    | some (full, key, len) => (full, key) :: findallNs t (len - 1)
    | none => findallNs t 0

/-- One `dict.update` step keyed on the `xmlns…` capture: an existing key
keeps its position and gets the new value, a new key is appended
(Python's insertion-ordered dict). -/
def updAssoc (m : List (List Char × List Char)) (kv : List Char × List Char) :
    List (List Char × List Char) :=
  if m.any (fun p => p.1 = kv.1) then
    m.map (fun p => if p.1 = kv.1 then (p.1, kv.2) else p)
  else m ++ [kv]

/-- xmliter's namespace map (lines 34–40): for each closing-tag name of
the trailer region, in reverse order, search the region before the
trailer for an opening tag carrying an `xmlns` declaration, and record
every captured declaration keyed by its `xmlns…` prefix part.  The map
holds key-value pairs; the joined values are injected into each yielded
node. -/
def xmliterNamespaces (name text : List Char) : List (List Char × List Char) :=
  match lastCloseEnd name text with
  | none => []
  | some e =>
    let headerEnd := pyStrip (text.drop e)
    if headerEnd.isEmpty then []
    else
      (findallEndTags headerEnd 0).reverse.foldl
        (fun acc tn =>
          match nsSearch tn (text.take e) with
          | some g => (findallNs g 0).foldl (fun a p => updAssoc a (p.2, p.1)) acc
          | none => acc) []

/-- `" ".join(values)`. -/
def joinSp (l : List (List Char)) : List Char := (l.intersperse [' ']).flatten

/-- Python `text.replace(old, new, 1)`: replace the first occurrence
only. -/
def replaceFirst (s pat repl : List Char) : List Char :=
  match firstIdx pat s with
  | some i => s.take i ++ repl ++ s.drop (i + pat.length)
  | none => s

/-- The text of one node yielded by xmliter: document header, the match
with the first occurrence of `nodename` extended by the joined namespace
declarations, then the trailer.  The `Selector(text=…, type='xml')`
wrapper is external to `src/`; the node is represented by the text it is
built from. -/
def xmliterYield (name text m : List Char) : List Char :=
  documentHeader text ++
  replaceFirst m name (name ++ ' ' :: joinSp ((xmliterNamespaces name text).map (·.2))) ++
  headerEndOf name text

/-- Embedding of `xmliter(obj, nodename)`: coerce the source to text,
then yield one node per pattern match. -/
def xmliterNodes (obj : Obj) (nodename : String) : Except PyErr (List String) :=
  (bodyOrStr obj).map (fun text =>
    (xmlScan nodename.data text.data).map
      (fun m => String.mk (xmliterYield nodename.data text.data m)))

/-- `nodename.replace(":", "-")` (single-character pattern, so a
character-wise map). -/
def sanitizeName (s : String) : String :=
  String.mk (s.data.map (fun c => if c = ':' then '-' else c))

/-- Python `nodename.find(":")`: index of the first colon, `-1` if
absent. -/
def pyFindColon (s : String) : Int :=
  match firstIdx [':'] s.data with
  | some i => (i : Int)
  | none => -1

/-- The sanitization step at the top of `xmliter_lxml`: only when
`nodename.find(":") > 0` is a sanitized alias derived and the source
rewritten through `TagReplacer`; otherwise both are passed on
unmodified. -/
def xmliterLxmlPre (obj : Obj) (nodename : String) : Except PyErr (String × Obj) :=
  if 0 < pyFindColon nodename then
    (tagReplace obj nodename (sanitizeName nodename)).map
      (fun o => (sanitizeName nodename, o))
  else .ok (nodename, obj)

/-- Embedding of the `_StreamReader` boundary: the adapter exposes the
source's bytes plus declared encoding, and the parser consumes the whole
stream.  Text sources are encoded and decoded back as UTF-8; byte
sources are decoded as UTF-8; a text response contributes its decoded
text (its body with its declared encoding); a non-text response has no
declared encoding (`Response` itself is outside `src/`, modelled from the
spec).  The first chunk is `.lstrip()`-ed by `read`, modelled by
stripping leading whitespace of the whole in-memory text. -/
def streamText (obj : Obj) : Except PyErr String :=
  match obj with
  | .str s => .ok (String.mk (pyLstrip s.data))
  | .bytes b =>
    match utf8Decode b with
    | some t => .ok (String.mk (pyLstrip t.data))
    | none => .error .decodeError
  | .textResponse t _ _ => .ok (String.mk (pyLstrip t.data))
  | .rawResponse _ => .error .attributeError
  | .other => .error .typeError

/-- Modelled from the spec: `lxml.etree.iterparse` (third-party, not part
of this repository) with a tag filter, plus per-node serialization and
selection — "drive an incremental parser configured to fire only on
end-events for the tag", yielding one serialized subtree per occurrence
of the named element; for the flat documents quantified over in this
development an occurrence is a non-nested `<tag …>…</tag>` segment, and
an empty document yields no events and no error (spec §8).  The
namespace-qualified variant and the `Selector`/XPath wrapper are outside
`src/`; a yielded node is represented by its serialized text. -/
def iterparseModel (text tag : String) : List String :=
  (xmlScan tag.data text.data).map String.mk

/-- Embedding of `xmliter_lxml(obj, nodename)` for the default
`namespace=None`: optional sanitization through `TagReplacer`, the
stream-reader boundary, then the incremental parse. -/
def xmliterLxml (obj : Obj) (nodename : String) : Except PyErr (List String) := do
  let p ← xmliterLxmlPre obj nodename
  let t ← streamText p.2
  pure (iterparseModel t p.1)

/-- Modelled from the spec: `scrapy.utils.python.to_unicode` (not under
`src/`).  On already-decoded text it returns the text unchanged; its
encoding argument applies only to byte strings, which cannot arise for
fields produced by the csv reader over the decoded document. -/
def toUnicode (field : String) (_encoding : String) : String := field

/-- `row_to_unicode` of `csviter`. -/
def rowToUnicode (enc : String) (row : List String) : List String :=
  row.map (toUnicode · enc)

/-- The encoding resolution at the top of `csviter`:
`obj.encoding if isinstance(obj, TextResponse) else encoding or 'utf-8'`. -/
def csvResolvedEncoding (obj : Obj) (encoding : Option String) : String :=
  match obj with
  | .textResponse _ e _ => e
  | _ => encoding.getD "utf-8"

/-- Split a character list on a separator character (like `str.split`,
keeping empty segments). -/
def splitListOn (d : Char) : List Char → List (List Char)
  | [] => [[]]
  | c :: t =>
    match splitListOn d t with
    | [] => [[]]
    | h :: r => if c = d then [] :: h :: r else (c :: h) :: r

/-- One line split into fields.  Modelled from the spec: the `csv` module
is external; a row is the delimiter-separated fields of one line, an
empty line is an empty row, and quoting is not modelled (no claim
exercises quoted fields). -/
def csvSplitLine (delim : Char) (line : List Char) : List String :=
  if line.isEmpty then [] else (splitListOn delim line).map String.mk

/-- All csv rows of the document text: one row per newline-separated
line, with no trailing empty row for a trailing newline, and no rows at
all for empty input. -/
def csvRows (text : String) (delim : Char) : List (List String) :=
  if text = "" then []
  else
    let ls := splitListOn '\n' text.data
    let ls := if ls.getLast? = some [] then ls.dropLast else ls
    ls.map (csvSplitLine delim)

/-- The skip diagnostic logged for a row whose field count mismatches the
header: document line number, actual count, expected count. -/
structure CsvDiag where
  lnum : Nat
  got : Nat
  expected : Nat
deriving DecidableEq, Repr

/-- The row loop of `csviter`: a row of mismatched length produces a
diagnostic (with its line number) and is skipped; a matching row yields
the header-to-field mapping (`dict(zip(headers, row))`, represented as
the zipped association list). -/
def csvLoop (hdr : List String) : List (List String) → Nat →
    List (List (String × String)) × List CsvDiag
  | [], _ => ([], [])
  | r :: rs, n =>
    let rest := csvLoop hdr rs (n + 1)
    if r.length = hdr.length then ((hdr.zip r) :: rest.1, rest.2)
    else (rest.1, ⟨n, r.length, hdr.length⟩ :: rest.2)

/-- Embedding of `csviter(obj, delimiter, headers, encoding, quotechar)`:
resolve the encoding, coerce the source to text, split into rows, decode
each row's fields with `to_unicode`, infer the header from the first row
when none is supplied (zero records when the input is exhausted), then
run the row loop.  Returns the yielded records and the logged
diagnostics. -/
def csviterModel (obj : Obj) (delimiter : Option Char) (headers : Option (List String))
    (encoding : Option String) (_quotechar : Option Char) :
    Except PyErr (List (List (String × String)) × List CsvDiag) := do
  let enc := csvResolvedEncoding obj encoding
  let text ← bodyOrStr obj
  let rows := (csvRows text (delimiter.getD ',')).map (rowToUnicode enc)
  match headers with
  | some hdr => pure (csvLoop hdr rows 1)
  | none =>
    match rows with
    | [] => pure ([], [])
    | hdr :: rest => pure (csvLoop hdr rest 2)

example :
    csviterModel (.str "a,b,c\n1,2,3\n4,5\n6,7,8") none none none none =
      .ok ([[("a", "1"), ("b", "2"), ("c", "3")], [("a", "6"), ("b", "7"), ("c", "8")]],
        [⟨3, 2, 3⟩]) := by decide

example :
    csviterModel (.str "1,2\n3,4") none (some ["x", "y"]) none none =
      .ok ([[("x", "1"), ("y", "2")], [("x", "3"), ("y", "4")]], []) := by decide

example :
    xmliterNodes (.str "<root><item>one</item><item>two</item></root>") "item" =
      .ok ["<item >one</item></root>", "<item >two</item></root>"] := by decide

/-- One non-nested occurrence of the iterated element, as a shape of
documents: `<name` then one `[\s>]` character `ch`, then `mid` (the rest
of the opening tag, the content, for flat elements), then `</name>`. -/
structure Occ where
  ch : Char
  mid : List Char

/-- The text of one occurrence. -/
def renderOcc (name : List Char) (o : Occ) : List Char :=
  '<' :: (name ++ o.ch :: (o.mid ++ endTagOf name))

/-- A sane element name: nonempty, with no angle brackets, slash or
whitespace. -/
def nameOk (name : List Char) : Prop :=
  name ≠ [] ∧ ∀ c ∈ name, c ≠ '<' ∧ c ≠ '>' ∧ c ≠ '/' ∧ pyIsSpace c = false

/-- Well-formedness of one occurrence: its start character is in `[\s>]`
and the first `</name>` inside it is its own closing tag (the element is
not nested inside itself and closes properly). -/
def occOk (name : List Char) (o : Occ) : Prop :=
  isStartCh o.ch = true ∧
  firstIdx (endTagOf name) (o.mid ++ endTagOf name) = some o.mid.length

/-- `s` contains a start of the node pattern: `<name` followed by a
`[\s>]` character. -/
def hasNodeStart (name : List Char) : List Char → Bool
  | [] => false
  | c :: t =>
    (pfx ('<' :: name) (c :: t) &&
      (match (c :: t).drop (name.length + 1) with
       | d :: _ => isStartCh d
       | [] => false)) ||
    hasNodeStart name t

/-- Separator text between (and around) the occurrences: it contains no
start of the node pattern, so no match can begin inside it. -/
def sepOk (name sep : List Char) : Prop := hasNodeStart name sep = false

/-- A document with exactly the given non-nested occurrences of the
element, in order: `sep₀ occ₁ sep₁ … occₙ sepₙ`. -/
def assemble (name sep0 : List Char) (parts : List (Occ × List Char)) : List Char :=
  sep0 ++ (parts.map (fun p => renderOcc name p.1 ++ p.2)).flatten

instance (name : List Char) : Decidable (nameOk name) :=
  inferInstanceAs (Decidable (name ≠ [] ∧ ∀ c ∈ name,
    c ≠ '<' ∧ c ≠ '>' ∧ c ≠ '/' ∧ pyIsSpace c = false))

instance (name : List Char) (o : Occ) : Decidable (occOk name o) :=
  inferInstanceAs (Decidable (isStartCh o.ch = true ∧
    firstIdx (endTagOf name) (o.mid ++ endTagOf name) = some o.mid.length))

instance (name sep : List Char) : Decidable (sepOk name sep) :=
  inferInstanceAs (Decidable (hasNodeStart name sep = false))

/-- The tag-name validity as worded by the spec: a non-empty string
matching `[a-z0-9-:_]+` in full. -/
def specValidTagName (s : String) : Bool := !s.data.isEmpty && s.data.all isTagChar

/-- Internal consistency of a document source: a text response's stored
body is the encoding of its text (with the UTF-8 byte model used here). -/
def objWf : Obj → Prop
  | .textResponse t _ b => b = utf8Encode t
  | _ => True


theorem string_mk_data (l : List Char) : (String.mk l).data = l := rfl

theorem pfx_nil (l : List Char) : pfx [] l = true := rfl

theorem pfx_cons (c : Char) (cs : List Char) (d : Char) (ds : List Char) :
    pfx (c :: cs) (d :: ds) = ((c == d) && pfx cs ds) := rfl

theorem pfx_cons_nil (c : Char) (cs : List Char) : pfx (c :: cs) [] = false := rfl

theorem pfxAppend (a b : List Char) : pfx a (a ++ b) = true := by
  induction a with
  | nil => rfl
  | cons c t ih => simp [pfx_cons, ih]

theorem pfxEq (a : List Char) : ∀ l, pfx a l = true → l = a ++ l.drop a.length := by
  induction a with
  | nil => simp
  | cons c t ih =>
    intro l h
    cases l with
    | nil => simp [pfx_cons_nil] at h
    | cons b bs =>
      rw [pfx_cons] at h
      simp only [Bool.and_eq_true, beq_iff_eq] at h
      obtain ⟨rfl, h2⟩ := h
      simpa using ih bs h2

theorem pfxLength (a : List Char) : ∀ l, pfx a l = true → a.length ≤ l.length := by
  induction a with
  | nil => simp
  | cons c t ih =>
    intro l h
    cases l with
    | nil => simp [pfx_cons_nil] at h
    | cons b bs =>
      rw [pfx_cons] at h
      simp only [Bool.and_eq_true, beq_iff_eq] at h
      simpa using ih bs h.2

theorem pfxTake (a : List Char) : ∀ l, pfx a l = true → l.take a.length = a := by
  intro l h
  conv_lhs => rw [pfxEq a l h]
  simp [List.take_left a (l.drop a.length)]

theorem pfxOfTake (a : List Char) : ∀ l, l.take a.length = a → pfx a l = true := by
  intro l h
  have h2 : l = a ++ l.drop a.length := by
    conv_lhs => rw [← List.take_append_drop a.length l, h]
  rw [h2]
  exact pfxAppend _ _

theorem pfxExtend (a l t : List Char) (h : pfx a l = true) : pfx a (l ++ t) = true := by
  apply pfxOfTake
  rw [List.take_append_of_le_length (pfxLength a l h)]
  exact pfxTake a l h

theorem firstIdx_nil_pat (l : List Char) : firstIdx [] l = some 0 := by
  cases l <;> simp [firstIdx, pfx_nil]

theorem firstIdx_cons (pat : List Char) (c : Char) (t : List Char) :
    firstIdx pat (c :: t) =
      if pfx pat (c :: t) then some 0 else (firstIdx pat t).map (· + 1) := rfl

theorem occursIn_cons (pat : List Char) (c : Char) (t : List Char) :
    occursIn pat (c :: t) = (pfx pat (c :: t) || occursIn pat t) := by
  unfold occursIn
  rw [firstIdx_cons]
  by_cases h : pfx pat (c :: t) = true
  · simp [h]
  · simp only [Bool.not_eq_true] at h
    simp [h]

theorem occursIn_of_pfx (pat l : List Char) (h : pfx pat l = true) :
    occursIn pat l = true := by
  cases l with
  | nil =>
    cases pat with
    | nil => simp [occursIn, firstIdx]
    | cons c t => simp [pfx_cons_nil] at h
  | cons c t => simp [occursIn_cons, h]

theorem firstIdx_take (pat : List Char) :
    ∀ (s : List Char) (k : Nat), firstIdx pat s = some k →
      s.take (k + pat.length) = s.take k ++ pat := by
  intro s
  induction s with
  | nil =>
    intro k h
    simp only [firstIdx] at h
    by_cases hp : pat.isEmpty
    · rw [List.isEmpty_iff.mp hp] at h ⊢
      simp at h
      simp [← h]
    · simp [hp] at h
  | cons c t ih =>
    intro k h
    rw [firstIdx_cons] at h
    by_cases hp : pfx pat (c :: t) = true
    · simp only [hp, if_pos] at h
      cases h
      simpa using pfxTake pat (c :: t) hp
    · simp only [Bool.not_eq_true] at hp
      simp only [hp, Bool.false_eq_true, if_false, Option.map_eq_some'] at h
      obtain ⟨k', hk', rfl⟩ := h
      have := ih k' hk'
      simp [List.take_succ_cons, Nat.add_right_comm, this]

theorem firstIdx_append_fit (pat : List Char) :
    ∀ (s : List Char) (k : Nat) (t : List Char),
      firstIdx pat s = some k → k + pat.length = s.length →
      firstIdx pat (s ++ t) = some k := by
  intro s
  induction s with
  | nil =>
    intro k t h hlen
    simp only [firstIdx] at h
    by_cases hp : pat.isEmpty
    · rw [List.isEmpty_iff.mp hp]
      simp only [hp, if_pos] at h
      cases h
      simpa using firstIdx_nil_pat t
    · simp [hp] at h
  | cons c s' ih =>
    intro k t h hlen
    rw [firstIdx_cons] at h
    by_cases hp : pfx pat (c :: s') = true
    · simp only [hp, if_pos] at h
      cases h
      rw [List.cons_append, firstIdx_cons]
      have := pfxExtend pat (c :: s') t hp
      rw [List.cons_append] at this
      simp [this]
    · simp only [Bool.not_eq_true] at hp
      simp only [hp, Bool.false_eq_true, if_false, Option.map_eq_some'] at h
      obtain ⟨k', hk', rfl⟩ := h
      have hlen' : k' + pat.length = s'.length := by
        simp only [List.length_cons] at hlen
        omega
      have hple : pat.length ≤ s'.length := by omega
      rw [List.cons_append, firstIdx_cons]
      have hnp : pfx pat (c :: (s' ++ t)) ≠ true := by
        intro hcon
        apply absurd _ (by simp [hp] : pfx pat (c :: s') ≠ true)
        apply pfxOfTake
        have htk := pfxTake pat (c :: (s' ++ t)) hcon
        cases pat with
        | nil => simp
        | cons p ps =>
          simp only [List.length_cons, List.take_succ_cons] at htk ⊢
          rw [List.take_append_of_le_length (by simp at hlen'; omega)] at htk
          exact htk
      simp only [Bool.not_eq_true] at hnp
      simp [hnp, ih k' t hk' hlen']

theorem pfxWeaken (a b l : List Char) (h : pfx (a ++ b) l = true) : pfx a l = true := by
  apply pfxOfTake
  have ht := pfxTake _ _ h
  have h2 : l.take a.length = (l.take (a ++ b).length).take a.length := by
    rw [List.take_take]
    congr 1
    simp
  rw [h2, ht, List.take_append_of_le_length (Nat.le_refl _), List.take_length]

theorem scanGo_nil (name : List Char) (k : Nat) : scanGo name [] k = [] := by
  cases k <;> rfl

theorem scanGo_succ (name : List Char) (c : Char) (t : List Char) (k : Nat) :
    scanGo name (c :: t) (k + 1) = scanGo name t k := rfl

theorem scanGo_zero (name : List Char) (c : Char) (t : List Char) :
    scanGo name (c :: t) 0 =
      (match tryMatchLen name (c :: t) with
       | some n => (c :: t).take n :: scanGo name t (n - 1)
       | none => scanGo name t 0) := rfl

theorem tryMatchLen_cons (name : List Char) (c : Char) (rest : List Char) :
    tryMatchLen name (c :: rest) =
      if c == '<' && pfx name rest && headStartCh (rest.drop name.length) then
        (firstIdx (endTagOf name) (rest.drop name.length).tail).map
          (fun k => 2 + name.length + k + (endTagOf name).length)
      else none := rfl

theorem scanGo_skip (name : List Char) :
    ∀ (a r : List Char) (k : Nat), scanGo name (a ++ r) (a.length + k) = scanGo name r k := by
  intro a
  induction a with
  | nil => intro r k; simp
  | cons c t ih =>
    intro r k
    have harr : t.length + 1 + k = (t.length + k) + 1 := by omega
    rw [List.cons_append, List.length_cons, harr, scanGo_succ]
    exact ih r k

theorem tryMatchLen_occ (name : List Char) (o : Occ) (rest : List Char) (ho : occOk name o) :
    tryMatchLen name (renderOcc name o ++ rest) = some (renderOcc name o).length := by
  obtain ⟨h1, h2⟩ := ho
  have hT : renderOcc name o ++ rest =
      '<' :: ((name ++ o.ch :: (o.mid ++ endTagOf name)) ++ rest) := rfl
  have hr : (name ++ o.ch :: (o.mid ++ endTagOf name)) ++ rest =
      name ++ (o.ch :: ((o.mid ++ endTagOf name) ++ rest)) := by simp
  rw [hT, tryMatchLen_cons, hr, List.drop_left, List.tail_cons]
  simp only [headStartCh, h1, pfxAppend, Bool.and_true, Bool.and_self, beq_self_eq_true,
    if_true, Bool.true_and, if_pos]
  rw [firstIdx_append_fit (endTagOf name) (o.mid ++ endTagOf name) o.mid.length rest h2
    (by simp)]
  simp only [Option.map_some', Option.some.injEq, renderOcc, List.length_cons,
    List.length_append]
  omega

theorem scanGo_occ (name : List Char) (o : Occ) (rest : List Char) (ho : occOk name o) :
    scanGo name (renderOcc name o ++ rest) 0 = renderOcc name o :: scanGo name rest 0 := by
  have hm := tryMatchLen_occ name o rest ho
  have hT : renderOcc name o ++ rest =
      '<' :: ((name ++ o.ch :: (o.mid ++ endTagOf name)) ++ rest) := rfl
  rw [hT, scanGo_zero, ← hT, hm]
  show (renderOcc name o ++ rest).take (renderOcc name o).length ::
      scanGo name ((name ++ o.ch :: (o.mid ++ endTagOf name)) ++ rest)
        ((renderOcc name o).length - 1) = _
  rw [List.take_left]
  have hl : (renderOcc name o).length - 1 =
      (name ++ o.ch :: (o.mid ++ endTagOf name)).length + 0 := by
    simp [renderOcc]
  rw [hl, scanGo_skip]

theorem hasNodeStart_cons (name : List Char) (c : Char) (t : List Char) :
    hasNodeStart name (c :: t) =
      ((pfx ('<' :: name) (c :: t) &&
        (match (c :: t).drop (name.length + 1) with
         | d :: _ => isStartCh d
         | [] => false)) ||
       hasNodeStart name t) := rfl

theorem hasNodeStart_of_pfx (name : List Char) (d : Char) (hd : isStartCh d = true) :
    ∀ sep, pfx ('<' :: (name ++ [d])) sep = true → hasNodeStart name sep = true := by
  intro sep h
  cases sep with
  | nil => simp [pfx_cons_nil] at h
  | cons c t =>
    rw [hasNodeStart_cons]
    have hfull : '<' :: (name ++ [d]) = ('<' :: name) ++ [d] := rfl
    have h1 : pfx ('<' :: name) (c :: t) = true := by
      apply pfxWeaken ('<' :: name) [d]
      rw [← hfull]
      exact h
    have he := pfxEq _ _ h
    have hdrop : (c :: t).drop (name.length + 1) =
        d :: (c :: t).drop ('<' :: (name ++ [d])).length := by
      conv_lhs => rw [he]
      have hx : '<' :: (name ++ [d]) ++ (c :: t).drop ('<' :: (name ++ [d])).length =
          ('<' :: name) ++ (d :: (c :: t).drop ('<' :: (name ++ [d])).length) := by simp
      rw [hx]
      have hlen : name.length + 1 = ('<' :: name).length := by simp
      rw [hlen, List.drop_left]
    rw [h1, hdrop]
    simp [hd]

theorem scanGo_sep (name : List Char) (hn : nameOk name) :
    ∀ (sep rest : List Char), sepOk name sep →
      (rest = [] ∨ ∃ r', rest = '<' :: r') →
      scanGo name (sep ++ rest) 0 = scanGo name rest 0 := by
  intro sep
  induction sep with
  | nil => intro rest _ _; simp
  | cons sc st ih =>
    intro rest hs hr
    have hx : hasNodeStart name (sc :: st) = false := hs
    rw [hasNodeStart_cons] at hx
    have hsplit := Bool.or_eq_false_iff.mp hx
    have hs' : sepOk name st := hsplit.2
    have hnone : tryMatchLen name (sc :: (st ++ rest)) = none := by
      rw [tryMatchLen_cons]
      by_cases hcond : (sc == '<' && pfx name (st ++ rest) &&
          headStartCh ((st ++ rest).drop name.length)) = true
      · exfalso
        simp only [Bool.and_eq_true, beq_iff_eq] at hcond
        obtain ⟨⟨h1, h2⟩, h3⟩ := hcond
        cases hd : (st ++ rest).drop name.length with
        | nil => rw [hd] at h3; simp [headStartCh] at h3
        | cons d r2 =>
          rw [hd] at h3
          simp only [headStartCh] at h3
          have hfull : pfx ('<' :: (name ++ [d])) ((sc :: st) ++ rest) = true := by
            rw [List.cons_append, pfx_cons]
            have hstep : st ++ rest = name ++ (d :: r2) := by
              rw [pfxEq name _ h2, hd]
            have hp2 : pfx (name ++ [d]) (st ++ rest) = true := by
              rw [hstep]
              have hassoc : name ++ (d :: r2) = (name ++ [d]) ++ r2 := by simp
              rw [hassoc]
              exact pfxAppend _ _
            simp [h1, hp2]
          by_cases hcase : ('<' :: (name ++ [d])).length ≤ (sc :: st).length
          · have htk := pfxTake _ _ hfull
            rw [List.take_append_of_le_length hcase] at htk
            have hin : pfx ('<' :: (name ++ [d])) (sc :: st) = true :=
              pfxOfTake _ _ htk
            have hcontra := hasNodeStart_of_pfx name d h3 (sc :: st) hin
            have hxx : hasNodeStart name (sc :: st) = false := hs
            rw [hcontra] at hxx
            cases hxx
          · push_neg at hcase
            rcases hr with rfl | ⟨r', rfl⟩
            · have hlen := pfxLength _ _ hfull
              simp only [List.append_nil] at hlen
              omega
            · have he := pfxEq _ _ hfull
              have hfit : ((sc :: st) ++ '<' :: r')[(sc :: st).length]? = some '<' := by
                rw [List.getElem?_append_right (Nat.le_refl _)]
                simp
              rw [he] at hfit
              rw [List.getElem?_append, if_pos hcase] at hfit
              rw [show (sc :: st).length = st.length + 1 from by simp] at hfit hcase
              rw [List.getElem?_cons_succ] at hfit
              simp only [List.length_cons, List.length_append, List.length_singleton,
                List.length_nil] at hcase
              by_cases hj : st.length < name.length
              · rw [List.getElem?_append, if_pos hj] at hfit
                rw [List.getElem?_eq_getElem hj] at hfit
                simp only [Option.some.injEq] at hfit
                have hmem := List.getElem_mem hj
                exact ((hn.2 _ hmem).1) hfit
              · have hj2 : st.length = name.length := by omega
                rw [List.getElem?_append_right (Nat.le_of_not_lt hj)] at hfit
                rw [hj2, Nat.sub_self] at hfit
                simp only [List.getElem?_cons_zero, Option.some.injEq] at hfit
                rw [hfit] at h3
                exact absurd h3 (by decide)
      · rw [if_neg hcond]
    rw [List.cons_append, scanGo_zero, hnone]
    exact ih rest hs' hr

theorem scan_assemble (name : List Char) (hn : nameOk name) :
    ∀ (parts : List (Occ × List Char)) (sep0 : List Char), sepOk name sep0 →
      (∀ p ∈ parts, occOk name p.1 ∧ sepOk name p.2) →
      xmlScan name (assemble name sep0 parts) = parts.map (fun p => renderOcc name p.1) := by
  intro parts
  induction parts with
  | nil =>
    intro sep0 h0 _
    show scanGo name (sep0 ++ ([] : List (List Char)).flatten) 0 = []
    rw [show (([] : List (List Char)).flatten) = ([] : List Char) from rfl]
    rw [scanGo_sep name hn sep0 [] h0 (Or.inl rfl)]
    exact scanGo_nil name 0
  | cons p ps ih =>
    intro sep0 h0 hp
    obtain ⟨ho, hsep⟩ := hp p (List.mem_cons_self p ps)
    show scanGo name (sep0 ++
        ((renderOcc name p.1 ++ p.2) ::
          ps.map (fun q => renderOcc name q.1 ++ q.2)).flatten) 0 = _
    rw [List.flatten_cons, List.append_assoc]
    rw [scanGo_sep name hn sep0
      (renderOcc name p.1 ++ (p.2 ++ (ps.map (fun q => renderOcc name q.1 ++ q.2)).flatten))
      h0 (Or.inr ⟨_, rfl⟩)]
    rw [scanGo_occ name p.1 _ ho]
    have := ih p.2 hsep (fun q hq => hp q (List.mem_cons_of_mem _ hq))
    unfold xmlScan assemble at this
    rw [this, List.map_cons]

/-- c1: for every well-formed document assembled from N non-nested
occurrences of the element `name` separated by occurrence-free text,
`xmliter` yields exactly N node views, one per occurrence in order, each
built from that occurrence's matched text (wrapped with the document
header, the injected namespace declarations and the trailer). -/
theorem c1_xmliter_one_node_per_occurrence (name sep0 : List Char)
    (parts : List (Occ × List Char)) (hn : nameOk name) (h0 : sepOk name sep0)
    (hp : ∀ p ∈ parts, occOk name p.1 ∧ sepOk name p.2) :
    ∃ nodes, xmliterNodes (Obj.str ⟨assemble name sep0 parts⟩) ⟨name⟩ = .ok nodes ∧
      nodes.length = parts.length ∧
      nodes = parts.map (fun p =>
        String.mk (xmliterYield name (assemble name sep0 parts) (renderOcc name p.1))) := by
  refine ⟨parts.map (fun p =>
    String.mk (xmliterYield name (assemble name sep0 parts) (renderOcc name p.1))),
    ?_, by simp, rfl⟩
  show Except.ok ((xmlScan name (assemble name sep0 parts)).map
    (fun m => String.mk (xmliterYield name (assemble name sep0 parts) m))) = _
  rw [scan_assemble name hn parts sep0 h0 hp, List.map_map]
  rfl

/-- c1 witness: a concrete two-occurrence feed. -/
theorem c1_witness :
    ∃ nodes, xmliterNodes (Obj.str ⟨assemble "item".data "<rss>".data
        [(⟨'>', "one".data⟩, []), (⟨'>', "two".data⟩, "</rss>".data)]⟩) "item" =
      .ok nodes ∧ nodes.length = 2 := by
  obtain ⟨nodes, h1, h2, -⟩ := c1_xmliter_one_node_per_occurrence "item".data "<rss>".data
    [(⟨'>', "one".data⟩, []), (⟨'>', "two".data⟩, "</rss>".data)]
    (by decide) (by decide) (by decide)
  exact ⟨nodes, h1, by simpa using h2⟩

theorem takeAppendLen (a : List Char) :
    ∀ (b : List Char) (n : Nat), (a ++ b).take (a.length + n) = a ++ b.take n := by
  induction a with
  | nil => intro b n; simp
  | cons c t ih =>
    intro b n
    have e : t.length + 1 + n = (t.length + n) + 1 := by omega
    rw [List.cons_append, List.length_cons, e, List.take_succ_cons, ih, List.cons_append]

theorem tryMatchLen_inv (name : List Char) (c : Char) (t : List Char) (n : Nat)
    (h : tryMatchLen name (c :: t) = some n) :
    c = '<' ∧ ∃ d r2 kk, t = name ++ d :: r2 ∧ isStartCh d = true ∧
      firstIdx (endTagOf name) r2 = some kk ∧
      n = 2 + name.length + kk + (endTagOf name).length := by
  rw [tryMatchLen_cons] at h
  by_cases hcond : (c == '<' && pfx name t && headStartCh (t.drop name.length)) = true
  · rw [if_pos hcond] at h
    simp only [Bool.and_eq_true, beq_iff_eq] at hcond
    obtain ⟨⟨h1, h2⟩, h3⟩ := hcond
    refine ⟨h1, ?_⟩
    cases hd : t.drop name.length with
    | nil => rw [hd] at h3; simp [headStartCh] at h3
    | cons d r2 =>
      rw [hd] at h3
      simp only [headStartCh] at h3
      rw [hd, List.tail_cons] at h
      rw [Option.map_eq_some'] at h
      obtain ⟨kk, hkk, hn⟩ := h
      exact ⟨d, r2, kk, by rw [pfxEq name t h2, hd], h3, hkk, hn.symm⟩
  · rw [if_neg hcond] at h
    cases h

theorem scanGo_mem_shape (name : List Char) :
    ∀ (text : List Char) (k : Nat) (m : List Char), m ∈ scanGo name text k →
      ∃ c mid, isStartCh c = true ∧ m = '<' :: (name ++ c :: (mid ++ endTagOf name)) := by
  intro text
  induction text with
  | nil => intro k m hm; rw [scanGo_nil] at hm; cases hm
  | cons c t ih =>
    intro k m hm
    cases k with
    | succ k' => exact ih k' m (by rwa [scanGo_succ] at hm)
    | zero =>
      rw [scanGo_zero] at hm
      cases htm : tryMatchLen name (c :: t) with
      | none => rw [htm] at hm; exact ih 0 m hm
      | some n =>
        rw [htm] at hm
        rcases List.mem_cons.mp hm with rfl | hmem
        · obtain ⟨rfl, d, r2, kk, rfl, hd, hkk, rfl⟩ := tryMatchLen_inv name c _ n htm
          refine ⟨d, r2.take kk, hd, ?_⟩
          have htk := firstIdx_take (endTagOf name) r2 kk hkk
          have e1 : 2 + name.length + kk + (endTagOf name).length =
              (name.length + ((kk + (endTagOf name).length) + 1)) + 1 := by omega
          rw [e1, List.take_succ_cons, takeAppendLen, List.take_succ_cons, htk]
        · exact ih (n - 1) m hmem

/-- c10: xmliter's node pattern treats the supplied nodename literally
(the source escapes it with `re.escape`): every match consists of `<`,
the nodename character for character, a `[\s>]` character, some content,
and the literal end tag `</nodename>`, so only elements whose tag equals
the nodename exactly are matched. -/
theorem c10_nodename_literal (name text m : List Char) (hm : m ∈ xmlScan name text) :
    ∃ c mid, isStartCh c = true ∧ m = '<' :: (name ++ c :: (mid ++ endTagOf name)) :=
  scanGo_mem_shape name text 0 m hm

/-- c10 witness: with the metacharacter-bearing nodename `a.b`, the one
match in `<a.b>x</a.b>` is literally that element (and a document whose
tag merely matches `a.b` as a regex, such as `<axb>`, yields no match at
all). -/
theorem c10_witness :
    (∃ c mid, isStartCh c = true ∧
      "<a.b>x</a.b>".data = '<' :: ("a.b".data ++ c :: (mid ++ endTagOf "a.b".data))) ∧
    xmlScan "a.b".data "<axb>x</axb>".data = [] := by
  constructor
  · exact c10_nodename_literal "a.b".data "<a.b>x</a.b>".data "<a.b>x</a.b>".data (by decide)
  · decide

theorem getLast_map (f : Char → Char) :
    ∀ l : List Char, (l.map f).getLast? = l.getLast?.map f := by
  intro l
  induction l with
  | nil => rfl
  | cons c t ih =>
    cases t with
    | nil => rfl
    | cons d r =>
      have e1 : (c :: d :: r).map f = f c :: f d :: (r.map f) := rfl
      rw [e1, List.getLast?_cons_cons, List.getLast?_cons_cons]
      have e2 : f d :: (r.map f) = (d :: r).map f := rfl
      rw [e2, ih]

theorem dropLast_map (f : Char → Char) :
    ∀ l : List Char, (l.map f).dropLast = l.dropLast.map f := by
  intro l
  induction l with
  | nil => rfl
  | cons c t ih =>
    cases t with
    | nil => rfl
    | cons d r =>
      have e1 : (c :: d :: r).map f = f c :: f d :: (r.map f) := rfl
      rw [e1, List.dropLast_cons₂]
      show f c :: ((d :: r).map f).dropLast = ((c :: d :: r).dropLast).map f
      rw [ih, List.dropLast_cons₂]
      rfl

theorem mapIsEmpty (f : Char → Char) (l : List Char) : (l.map f).isEmpty = l.isEmpty := by
  cases l <;> rfl

theorem tagChar_sanitize (c : Char) (h : isTagChar c = true) :
    isTagChar (if c = ':' then '-' else c) = true := by
  by_cases hc : c = ':'
  · simp only [hc, if_pos]
    decide
  · simp [hc, h]

theorem sanitize_valid (s : String) (h : validateTagName s = true) :
    validateTagName (sanitizeName s) = true := by
  unfold validateTagName at h ⊢
  unfold sanitizeName
  rw [string_mk_data, getLast_map]
  by_cases hL : s.data.getLast? = some '\n'
  · rw [if_pos hL] at h
    rw [hL]
    rw [if_pos (by decide :
      Option.map (fun c => if c = ':' then '-' else c) (some '\n') = some '\n')]
    simp only [Bool.and_eq_true] at h ⊢
    constructor
    · rw [dropLast_map, mapIsEmpty]
      exact h.1
    · rw [dropLast_map, List.all_map]
      refine List.all_eq_true.mpr ?_
      intro x hx
      exact tagChar_sanitize x (List.all_eq_true.mp h.2 x hx)
  · rw [if_neg hL] at h
    have hcond : ¬ (s.data.getLast?.map (fun c => if c = ':' then '-' else c) = some '\n') := by
      intro hcon
      cases hg : s.data.getLast? with
      | none => rw [hg] at hcon; cases hcon
      | some c =>
        rw [hg] at hcon
        simp only [Option.map_some', Option.some.injEq] at hcon
        by_cases hc : c = ':'
        · rw [if_pos hc] at hcon
          cases hcon
        · rw [if_neg hc] at hcon
          rw [hcon] at hg
          exact hL hg
    rw [if_neg hcond]
    simp only [Bool.and_eq_true] at h ⊢
    constructor
    · rw [mapIsEmpty]
      exact h.1
    · rw [List.all_map]
      refine List.all_eq_true.mpr ?_
      intro x hx
      exact tagChar_sanitize x (List.all_eq_true.mp h.2 x hx)

/-- c3: on an empty input document, the pattern-based XML extractor, the
incremental XML extractor and the CSV extractor each yield zero records
and raise no error (for any valid node name). -/
theorem c3_empty_document (nodename : String) (h : validateTagName nodename = true) :
    xmliterNodes (Obj.str "") nodename = .ok [] ∧
    xmliterLxml (Obj.str "") nodename = .ok [] ∧
    csviterModel (Obj.str "") none none none none = .ok ([], []) := by
  refine ⟨rfl, ?_, by decide⟩
  unfold xmliterLxml xmliterLxmlPre
  by_cases hc : 0 < pyFindColon nodename
  · rw [if_pos hc]
    have e1 : tagReplace (Obj.str "") nodename (sanitizeName nodename) = .ok (Obj.str "") := by
      unfold tagReplace
      rw [h, sanitize_valid nodename h]
      rfl
    rw [e1]
    rfl
  · rw [if_neg hc]
    rfl

/-- c3 witness: the three extractors on the empty string with node name
`item`. -/
theorem c3_witness :
    xmliterNodes (Obj.str "") "item" = .ok [] ∧
    xmliterLxml (Obj.str "") "item" = .ok [] ∧
    csviterModel (Obj.str "") none none none none = .ok ([], []) :=
  c3_empty_document "item" (by decide)

/-- c4: on `"a,b,c\n1,2,3\n4,5\n6,7,8"` with inferred headers, csviter
yields exactly the two mappings `a↦1,b↦2,c↦3` and `a↦6,b↦7,c↦8` in that
order, and logs exactly one skip diagnostic — line 3, actual field count
2, expected 3 — for the `4,5` row, without aborting. -/
theorem c4_csviter_mismatched_row :
    csviterModel (.str "a,b,c\n1,2,3\n4,5\n6,7,8") none none none none =
      .ok ([[("a", "1"), ("b", "2"), ("c", "3")], [("a", "6"), ("b", "7"), ("c", "8")]],
        [⟨3, 2, 3⟩]) := by decide

/-- c6 counterexample: `"a\n"` fails the spec's full-match validity (it
contains a newline), yet `TagReplacer.replace` raises no error for it —
Python's `$` in `re.match(r"^[a-z0-9-:_]{1,}$", …)` also matches before a
single trailing newline. -/
theorem c6_counterexample :
    specValidTagName "a\n" = false ∧ validateTagName "a\n" = true ∧
    tagReplace (Obj.str "x") "a\n" "ab" = .ok (Obj.str "x") := by decide

/-- c6 amended: `TagReplacer.replace` raises a ValueError-kind failure
if and only if a tag name fails the code's validation — nonempty, all
characters in `[a-z0-9-:_]`, or such a core followed by one trailing
newline (Python `$` semantics) — and this happens before any rewriting
or decoding (for every document shape, including undecodable ones). -/
theorem c6_valueerror_iff_invalid (obj : Obj) (old new : String) :
    tagReplace obj old new = .error .valueError ↔
      (validateTagName old = false ∨ validateTagName new = false) := by
  constructor
  · intro h
    by_cases h1 : validateTagName old = true
    · by_cases h2 : validateTagName new = true
      · exfalso
        unfold tagReplace at h
        rw [h1, h2] at h
        cases obj with
        | bytes b => cases hb : utf8Decode b <;> simp [trDecode, hb, Except.map] at h
        | str s => simp [trDecode, Except.map] at h
        | textResponse t e b => simp [trDecode, Except.map] at h
        | rawResponse b => simp [trDecode, Except.map] at h
        | other => simp [trDecode, Except.map] at h
      · right
        simpa using h2
    · left
      simpa using h1
  · intro h
    unfold tagReplace
    rcases h with h | h
    · rw [h]
      rfl
    · rw [h]
      cases h1 : validateTagName old
      · rfl
      · rfl

/-- c6 witness: an invalid old tag (`a?`) raises ValueError. -/
theorem c6_witness : tagReplace (Obj.str "x") "a?" "b" = .error .valueError :=
  (c6_valueerror_iff_invalid (Obj.str "x") "a?" "b").mpr (Or.inl (by decide))

/-- c7 counterexample: the byte `0xFF` is not valid UTF-8, so the
coercion step raises a UnicodeDecodeError-kind failure for a raw-bytes
document, contradicting "every value of the three supported shapes is
mapped to text without error". -/
theorem c7_counterexample : bodyOrStr (Obj.bytes [255]) = .error .decodeError := by decide

/-- c7 amended: the coercion step maps text and text-response documents
to text without error, maps bytes-backed documents (raw bytes or a plain
response body) to text exactly when they decode as UTF-8 (raising a
UnicodeDecodeError-kind failure otherwise), and raises TypeError, before
any iteration, exactly for sources of any other shape. -/
theorem c7_coercion_totality (obj : Obj) :
    ((bodyOrStr obj).isOk = true ↔
      (obj ≠ .other ∧ ∀ b, (obj = .bytes b ∨ obj = .rawResponse b) →
        (utf8Decode b).isSome = true)) ∧
    (bodyOrStr obj = .error .typeError ↔ obj = .other) := by
  cases obj with
  | bytes b => cases hb : utf8Decode b <;> simp [bodyOrStr, Except.isOk, Except.toBool, hb]
  | rawResponse b => cases hb : utf8Decode b <;> simp [bodyOrStr, Except.isOk, Except.toBool, hb]
  | str s => simp [bodyOrStr, Except.isOk, Except.toBool]
  | textResponse t e b => simp [bodyOrStr, Except.isOk, Except.toBool]
  | other => simp [bodyOrStr, Except.isOk, Except.toBool]

/-- c7 witness: an unsupported source shape raises TypeError at
coercion. -/
theorem c7_witness : bodyOrStr Obj.other = .error .typeError :=
  (c7_coercion_totality Obj.other).2.mpr rfl

theorem rowToUnicode_id (enc : String) (row : List String) : rowToUnicode enc row = row := by
  simp [rowToUnicode, toUnicode]

theorem map_rowToUnicode (enc : String) (rows : List (List String)) :
    rows.map (rowToUnicode enc) = rows := by
  induction rows with
  | nil => rfl
  | cons r rs ih => simp [rowToUnicode_id, ih]

/-- c8 counterexample: for a bytes document with an explicitly supplied
`latin-1` encoding, csviter still decodes the body with hard-coded UTF-8
inside the coercion step and fails on the latin-1 byte `0xE9`; the
explicit encoding parameter never reaches any decoding step. -/
theorem c8_counterexample :
    csviterModel (Obj.bytes [233]) none none (some "latin-1") none =
      .error .decodeError := by decide

/-- c8 amended: csviter resolves an encoding (the response's own for a
text response, else the supplied parameter, else UTF-8) but applies it
only through `to_unicode` on already-decoded text fields, which is the
identity; the document itself is decoded during coercion (response
encoding or hard-coded UTF-8), so the encoding parameter never affects
the extraction result. -/
theorem c8_encoding_parameter_inert (obj : Obj) (delimiter : Option Char)
    (headers : Option (List String)) (e1 e2 : Option String) (qc : Option Char) :
    csviterModel obj delimiter headers e1 qc = csviterModel obj delimiter headers e2 qc := by
  simp [csviterModel, map_rowToUnicode]

theorem occursIn_colon_sanitize :
    ∀ l : List Char, occursIn [':'] (l.map (fun c => if c = ':' then '-' else c)) = false := by
  intro l
  induction l with
  | nil => rfl
  | cons c t ih =>
    have e : (c :: t).map (fun c => if c = ':' then '-' else c) =
        (if c = ':' then '-' else c) :: t.map (fun c => if c = ':' then '-' else c) := rfl
    have hf : (if c = ':' then '-' else c) ≠ ':' := by
      by_cases hcc : c = ':'
      · simp [hcc]
      · simp [hcc]
    rw [e, occursIn_cons, ih, Bool.or_false, pfx_cons]
    simp only [pfx_nil, Bool.and_true]
    exact beq_eq_false_iff_ne.mpr (fun hx => hf hx.symm)

/-- c9 counterexample: the node name `:a` contains the namespace
separator, yet `xmliter_lxml` derives no alias and streams the source
unmodified, because the source tests `nodename.find(":") > 0` and the
colon sits at index 0. -/
theorem c9_counterexample :
    occursIn [':'] ":a".data = true ∧
    xmliterLxmlPre (Obj.str "<x/>") ":a" = .ok (":a", Obj.str "<x/>") := by decide

/-- c9 amended: only when `nodename.find(":") > 0` — a colon at some
index after the first character — does `xmliter_lxml` derive the
sanitized alias (all colons replaced by hyphens, so the alias is
colon-free) and rewrite the source through `TagReplacer`; otherwise,
including a leading-colon name, both are passed on unmodified. -/
theorem c9_sanitize_condition (obj : Obj) (name : String) :
    (0 < pyFindColon name →
      xmliterLxmlPre obj name =
        (tagReplace obj name (sanitizeName name)).map (fun o => (sanitizeName name, o)) ∧
      occursIn [':'] (sanitizeName name).data = false) ∧
    (¬ 0 < pyFindColon name → xmliterLxmlPre obj name = .ok (name, obj)) := by
  constructor
  · intro hc
    constructor
    · unfold xmliterLxmlPre
      rw [if_pos hc]
    · exact occursIn_colon_sanitize name.data
  · intro hc
    unfold xmliterLxmlPre
    rw [if_neg hc]

/-- c9 witness: `a:b` is sanitized to `a-b` and the document rewritten;
a plain name streams unmodified. -/
theorem c9_witness :
    xmliterLxmlPre (Obj.str "<a:b>x</a:b>") "a:b" = .ok ("a-b", Obj.str "<a-b>x</a-b>") ∧
    xmliterLxmlPre (Obj.str "<n>x</n>") "n" = .ok ("n", Obj.str "<n>x</n>") := by
  constructor
  · have h := ((c9_sanitize_condition (Obj.str "<a:b>x</a:b>") "a:b").1 (by decide)).1
    exact h.trans (by decide)
  · exact (c9_sanitize_condition (Obj.str "<n>x</n>") "n").2 (by decide)

/-- c2 counterexample: the claim says a closing-tag occurrence of the
old tag is left unchanged, but `replace("</a:b>", "a:b", "x-y")` rewrites
it — the intended lookbehind `(?<!</)` is written `(?<!\\<\/)` in a raw
string, which blocks only the literal text `\</`. -/
theorem c2_counterexample :
    tagReplace (Obj.str "</a:b>") "a:b" "x-y" = .ok (Obj.str "</x-y>") ∧
    Obj.str "</x-y>" ≠ Obj.str "</a:b>" := by decide

theorem subGo_nil (old new pre : List Char) (count skip : Nat) :
    subGo old new [] pre count skip = [] := by
  cases skip <;> rfl

theorem subGo_succ (old new : List Char) (c : Char) (t pre : List Char) (count k : Nat) :
    subGo old new (c :: t) pre count (k + 1) = subGo old new t (c :: pre) count k := rfl

theorem subGo_zero (old new : List Char) (c : Char) (t pre : List Char) (count : Nat) :
    subGo old new (c :: t) pre count 0 =
      if 0 < count && pfx old (c :: t) && !lbBlocked pre &&
          lookahead ((c :: t).drop old.length) then
        new ++ subGo old new t (c :: pre) (count - 1) (old.length - 1)
      else
        c :: subGo old new t (c :: pre) count 0 := rfl

theorem subGo_skip (old new : List Char) :
    ∀ (a r pre : List Char) (count : Nat),
      subGo old new (a ++ r) pre count a.length = subGo old new r (a.reverse ++ pre) count 0 := by
  intro a
  induction a with
  | nil => intro r pre count; simp
  | cons c t ih =>
    intro r pre count
    show subGo old new (c :: (t ++ r)) pre count (t.length + 1) = _
    rw [subGo_succ, ih]
    congr 1
    simp

theorem tagChar_not_special (c : Char) (h : isTagChar c = true) :
    c ≠ '<' ∧ c ≠ '/' ∧ c ≠ '>' := by
  refine ⟨?_, ?_, ?_⟩ <;> intro e <;> rw [e] at h <;> exact absurd h (by decide)

theorem subGo_tag_core (old new : List Char) (pre : List Char)
    (hne : old ≠ []) (hall : old.all isTagChar = true) (hlb : lbBlocked pre = false) :
    subGo old new (old ++ ['>']) pre 8 0 = new ++ ['>'] := by
  cases old with
  | nil => exact absurd rfl hne
  | cons h hs =>
    have hh : isTagChar h = true := by
      simp only [List.all_cons, Bool.and_eq_true] at hall
      exact hall.1
    obtain ⟨-, -, hgt⟩ := tagChar_not_special h hh
    have hdrop : ((h :: hs) ++ ['>']).drop (h :: hs).length = ['>'] := List.drop_left _ _
    rw [List.cons_append, subGo_zero]
    rw [if_pos ?hc]
    case hc =>
      rw [← List.cons_append, hdrop]
      simp [pfxAppend, hlb]
      constructor
      · rw [← List.cons_append]
        exact pfxAppend (h :: hs) ['>']
      · decide
    have hskip : (h :: hs).length - 1 = hs.length := by simp
    rw [hskip, subGo_skip, subGo_zero]
    rw [if_neg ?hc2]
    case hc2 =>
      rw [pfx_cons]
      intro hcon
      simp only [Bool.and_eq_true, beq_iff_eq] at hcon
      exact hgt hcon.1.1.2.1
    rw [subGo_nil]

theorem subGo_closing (old new : List Char)
    (hne : old ≠ []) (hall : old.all isTagChar = true) :
    subGo old new ('<' :: '/' :: (old ++ ['>'])) [] 8 0 = '<' :: '/' :: (new ++ ['>']) := by
  cases old with
  | nil => exact absurd rfl hne
  | cons h hs =>
    have hh : isTagChar h = true := by
      simp only [List.all_cons, Bool.and_eq_true] at hall
      exact hall.1
    obtain ⟨hlt, hsl, -⟩ := tagChar_not_special h hh
    have c1 : pfx (h :: hs) ('<' :: '/' :: h :: (hs ++ ['>'])) = false := by
      rw [pfx_cons]
      simp [beq_eq_false_iff_ne.mpr hlt]
    have c2 : pfx (h :: hs) ('/' :: h :: (hs ++ ['>'])) = false := by
      rw [pfx_cons]
      simp [beq_eq_false_iff_ne.mpr hsl]
    rw [subGo_zero, if_neg (by simp [c1])]
    rw [subGo_zero, if_neg (by simp [c2])]
    rw [subGo_tag_core (h :: hs) new ['/', '<'] hne hall rfl]

theorem subGo_opening (old new : List Char)
    (hne : old ≠ []) (hall : old.all isTagChar = true) :
    subGo old new ('<' :: (old ++ ['>'])) [] 8 0 = '<' :: (new ++ ['>']) := by
  cases old with
  | nil => exact absurd rfl hne
  | cons h hs =>
    have hh : isTagChar h = true := by
      simp only [List.all_cons, Bool.and_eq_true] at hall
      exact hall.1
    obtain ⟨hlt, -, -⟩ := tagChar_not_special h hh
    have c1 : pfx (h :: hs) ('<' :: h :: (hs ++ ['>'])) = false := by
      rw [pfx_cons]
      simp [beq_eq_false_iff_ne.mpr hlt]
    rw [subGo_zero, if_neg (by simp [c1])]
    rw [subGo_tag_core (h :: hs) new ['<'] hne hall rfl]

/-- c2 amended: `TagReplacer` substitutes occurrences of `oldTag`
followed by optional attributes and `>` in opening and closing tags
alike — the lookbehind `(?<!\\<\/)` blocks only the literal text `\</`,
not end tags — and replaces at most 8 occurrences per call, because
`re.MULTILINE` (value 8) is passed as `re.sub`'s positional `count`
argument. -/
theorem c2_sub_behaviour :
    (∀ old new : String, old.data ≠ [] → old.data.all isTagChar = true →
      subTags old new ⟨'<' :: '/' :: (old.data ++ ['>'])⟩ =
        ⟨'<' :: '/' :: (new.data ++ ['>'])⟩) ∧
    (∀ old new : String, old.data ≠ [] → old.data.all isTagChar = true →
      subTags old new ⟨'<' :: (old.data ++ ['>'])⟩ = ⟨'<' :: (new.data ++ ['>'])⟩) ∧
    subTags "a" "b" "<a><a><a><a><a><a><a><a><a>" = "<b><b><b><b><b><b><b><b><a>" := by
  refine ⟨?_, ?_, by decide⟩
  · intro old new hne hall
    show String.mk (subGo old.data new.data ('<' :: '/' :: (old.data ++ ['>'])) [] 8 0) = _
    rw [subGo_closing old.data new.data hne hall]
  · intro old new hne hall
    show String.mk (subGo old.data new.data ('<' :: (old.data ++ ['>'])) [] 8 0) = _
    rw [subGo_opening old.data new.data hne hall]

/-- c2 witness: the closing tag `</a:b>` and the opening tag `<a:b>` are
both rewritten. -/
theorem c2_amended_witness :
    subTags "a:b" "q" "</a:b>" = "</q>" ∧ subTags "a:b" "q" "<a:b>" = "<q>" := by
  constructor
  · exact (c2_sub_behaviour.1 "a:b" "q" (by decide) (by decide)).trans (by decide)
  · exact (c2_sub_behaviour.2.1 "a:b" "q" (by decide) (by decide)).trans (by decide)

theorem char_toNat_valid (c : Char) :
    c.toNat < 0xd800 ∨ (0xdfff < c.toNat ∧ c.toNat < 0x110000) := by
  rcases c.valid with h | ⟨h1, h2⟩
  · left
    exact UInt32.toNat_lt_of_lt (by decide) h
  · right
    exact ⟨UInt32.lt_toNat_of_lt (by decide) h1, UInt32.toNat_lt_of_lt (by decide) h2⟩

theorem toNat_ofNat_valid (v : Nat) (h : v.isValidChar) : (Char.ofNat v).toNat = v := by
  rw [Char.ofNat, dif_pos h]
  rfl


theorem utf8DecodeOne_one (b : Nat) (rest : List Nat) (h : b < 0x80) :
    utf8DecodeOne (b :: rest) = some (b, 1) := by
  simp only [utf8DecodeOne]
  rw [if_pos h]

theorem utf8DecodeOne_two (b b1 : Nat) (rest : List Nat)
    (h1 : ¬ b < 0x80) (h2 : ¬ b < 0xC2) (h3 : b < 0xE0) (h4 : 0x80 ≤ b1 ∧ b1 < 0xC0) :
    utf8DecodeOne (b :: b1 :: rest) = some ((b - 0xC0) * 64 + (b1 - 0x80), 2) := by
  simp only [utf8DecodeOne]
  rw [if_neg h1, if_neg h2, if_pos h3, if_pos h4]

theorem utf8DecodeOne_three (b b1 b2 : Nat) (rest : List Nat)
    (h1 : ¬ b < 0x80) (h2 : ¬ b < 0xC2) (h3 : ¬ b < 0xE0) (h4 : b < 0xF0)
    (h5 : (0x80 ≤ b1 ∧ b1 < 0xC0) ∧ (0x80 ≤ b2 ∧ b2 < 0xC0))
    (h6 : ¬ ((b - 0xE0) * 4096 + (b1 - 0x80) * 64 + (b2 - 0x80) < 0x800 ∨
      (0xD800 ≤ (b - 0xE0) * 4096 + (b1 - 0x80) * 64 + (b2 - 0x80) ∧
       (b - 0xE0) * 4096 + (b1 - 0x80) * 64 + (b2 - 0x80) < 0xE000))) :
    utf8DecodeOne (b :: b1 :: b2 :: rest) =
      some ((b - 0xE0) * 4096 + (b1 - 0x80) * 64 + (b2 - 0x80), 3) := by
  simp only [utf8DecodeOne]
  rw [if_neg h1, if_neg h2, if_neg h3, if_pos h4, if_pos h5, if_neg h6]

theorem utf8DecodeOne_four (b b1 b2 b3 : Nat) (rest : List Nat)
    (h1 : ¬ b < 0x80) (h2 : ¬ b < 0xC2) (h3 : ¬ b < 0xE0) (h4 : ¬ b < 0xF0)
    (h5 : b < 0xF5)
    (h6 : (0x80 ≤ b1 ∧ b1 < 0xC0) ∧ (0x80 ≤ b2 ∧ b2 < 0xC0) ∧ (0x80 ≤ b3 ∧ b3 < 0xC0))
    (h7 : ¬ ((b - 0xF0) * 0x40000 + (b1 - 0x80) * 4096 + (b2 - 0x80) * 64 + (b3 - 0x80)
        < 0x10000 ∨
      0x110000 ≤ (b - 0xF0) * 0x40000 + (b1 - 0x80) * 4096 + (b2 - 0x80) * 64 +
        (b3 - 0x80))) :
    utf8DecodeOne (b :: b1 :: b2 :: b3 :: rest) =
      some ((b - 0xF0) * 0x40000 + (b1 - 0x80) * 4096 + (b2 - 0x80) * 64 + (b3 - 0x80), 4) := by
  simp only [utf8DecodeOne]
  rw [if_neg h1, if_neg h2, if_neg h3, if_neg h4, if_pos h5, if_pos h6, if_neg h7]

theorem utf8DecodeGo_nil (f : Nat) : utf8DecodeGo f [] = some [] := by
  cases f <;> rfl

theorem utf8DecodeGo_some (f : Nat) (b : Nat) (rest : List Nat) (v len : Nat)
    (h : utf8DecodeOne (b :: rest) = some (v, len)) :
    utf8DecodeGo (f + 1) (b :: rest) =
      (utf8DecodeGo f ((b :: rest).drop len)).map (Char.ofNat v :: ·) := by
  conv_lhs => unfold utf8DecodeGo
  split
  next heq => rw [h] at heq; cases heq
  next v' len' heq =>
    rw [h] at heq
    injection heq with hpair
    cases hpair
    rfl

theorem utf8DecodeGo_none (f : Nat) (b : Nat) (rest : List Nat)
    (h : utf8DecodeOne (b :: rest) = none) :
    utf8DecodeGo (f + 1) (b :: rest) = none := by
  conv_lhs => unfold utf8DecodeGo
  split
  · rfl
  next v' len' heq => rw [h] at heq; cases heq

theorem utf8DecodeGo_encode (cs : List Char) :
    ∀ f, ((cs.map utf8EncodeChar).flatten).length ≤ f →
      utf8DecodeGo f ((cs.map utf8EncodeChar).flatten) = some cs := by
  induction cs with
  | nil => intro f _; exact utf8DecodeGo_nil f
  | cons c cs ih =>
    intro f hf
    rw [List.map_cons, List.flatten_cons] at hf ⊢
    by_cases hs1 : c.toNat < 0x80
    · have e : utf8EncodeChar c = [c.toNat] := by simp [utf8EncodeChar, hs1]
      rw [e] at hf ⊢
      rw [List.singleton_append] at hf ⊢
      cases f with
      | zero => simp at hf
      | succ f' =>
        rw [utf8DecodeGo_some f' _ _ c.toNat 1 (utf8DecodeOne_one _ _ hs1)]
        rw [show ((c.toNat :: (cs.map utf8EncodeChar).flatten).drop 1) =
          (cs.map utf8EncodeChar).flatten from rfl]
        rw [ih f' (by simp only [List.length_cons] at hf; omega)]
        simp
    · by_cases hs2 : c.toNat < 0x800
      · have e : utf8EncodeChar c = [0xC0 + c.toNat / 64, 0x80 + c.toNat % 64] := by
          simp [utf8EncodeChar, hs1, hs2]
        rw [e] at hf ⊢
        rw [show ([0xC0 + c.toNat / 64, 0x80 + c.toNat % 64] ++
          (cs.map utf8EncodeChar).flatten) = (0xC0 + c.toNat / 64) ::
            ((0x80 + c.toNat % 64) :: (cs.map utf8EncodeChar).flatten) from rfl] at hf ⊢
        cases f with
        | zero => simp at hf
        | succ f' =>
          rw [utf8DecodeGo_some f' _ _ _ 2
            (utf8DecodeOne_two _ _ _ (by omega) (by omega) (by omega)
              (by constructor <;> omega))]
          rw [show (((0xC0 + c.toNat / 64) ::
            ((0x80 + c.toNat % 64) :: (cs.map utf8EncodeChar).flatten)).drop 2) =
            (cs.map utf8EncodeChar).flatten from rfl]
          rw [ih f' (by simp only [List.length_cons] at hf; omega)]
          rw [show (0xC0 + c.toNat / 64 - 0xC0) * 64 + (0x80 + c.toNat % 64 - 0x80) =
            c.toNat from by omega]
          simp
      · by_cases hs3 : c.toNat < 0x10000
        · have e : utf8EncodeChar c = [0xE0 + c.toNat / 4096,
              0x80 + (c.toNat / 64) % 64, 0x80 + c.toNat % 64] := by
            simp [utf8EncodeChar, hs1, hs2, hs3]
          rw [e] at hf ⊢
          rw [show ([0xE0 + c.toNat / 4096, 0x80 + (c.toNat / 64) % 64,
            0x80 + c.toNat % 64] ++ (cs.map utf8EncodeChar).flatten) =
            (0xE0 + c.toNat / 4096) :: ((0x80 + (c.toNat / 64) % 64) ::
              ((0x80 + c.toNat % 64) :: (cs.map utf8EncodeChar).flatten)) from rfl] at hf ⊢
          cases f with
          | zero => simp at hf
          | succ f' =>
            rw [utf8DecodeGo_some f' _ _ _ 3
              (utf8DecodeOne_three _ _ _ _ (by omega) (by omega) (by omega) (by omega)
                (by refine ⟨⟨?_, ?_⟩, ?_, ?_⟩ <;> omega)
                (by rcases char_toNat_valid c with h | ⟨ha, hb⟩ <;> omega))]
            rw [show (((0xE0 + c.toNat / 4096) :: ((0x80 + (c.toNat / 64) % 64) ::
              ((0x80 + c.toNat % 64) :: (cs.map utf8EncodeChar).flatten))).drop 3) =
              (cs.map utf8EncodeChar).flatten from rfl]
            rw [ih f' (by simp only [List.length_cons] at hf; omega)]
            rw [show (0xE0 + c.toNat / 4096 - 0xE0) * 4096 +
              (0x80 + c.toNat / 64 % 64 - 0x80) * 64 + (0x80 + c.toNat % 64 - 0x80) =
              c.toNat from by omega]
            simp
        · have hlt : c.toNat < 0x110000 := by
            rcases char_toNat_valid c with h | ⟨ha, hb⟩ <;> omega
          have e : utf8EncodeChar c = [0xF0 + c.toNat / 0x40000,
              0x80 + (c.toNat / 4096) % 64, 0x80 + (c.toNat / 64) % 64,
              0x80 + c.toNat % 64] := by
            simp [utf8EncodeChar, hs1, hs2, hs3]
          rw [e] at hf ⊢
          rw [show ([0xF0 + c.toNat / 0x40000, 0x80 + (c.toNat / 4096) % 64,
            0x80 + (c.toNat / 64) % 64, 0x80 + c.toNat % 64] ++
            (cs.map utf8EncodeChar).flatten) =
            (0xF0 + c.toNat / 0x40000) :: ((0x80 + (c.toNat / 4096) % 64) ::
              ((0x80 + (c.toNat / 64) % 64) :: ((0x80 + c.toNat % 64) ::
                (cs.map utf8EncodeChar).flatten))) from rfl] at hf ⊢
          cases f with
          | zero => simp at hf
          | succ f' =>
            rw [utf8DecodeGo_some f' _ _ _ 4
              (utf8DecodeOne_four _ _ _ _ _ (by omega) (by omega) (by omega) (by omega)
                (by omega)
                (by refine ⟨⟨?_, ?_⟩, ⟨?_, ?_⟩, ?_, ?_⟩ <;> omega)
                (by omega))]
            rw [show (((0xF0 + c.toNat / 0x40000) :: ((0x80 + (c.toNat / 4096) % 64) ::
              ((0x80 + (c.toNat / 64) % 64) :: ((0x80 + c.toNat % 64) ::
                (cs.map utf8EncodeChar).flatten)))).drop 4) =
              (cs.map utf8EncodeChar).flatten from rfl]
            rw [ih f' (by simp only [List.length_cons] at hf; omega)]
            rw [show (0xF0 + c.toNat / 0x40000 - 0xF0) * 0x40000 +
              (0x80 + c.toNat / 4096 % 64 - 0x80) * 4096 +
              (0x80 + c.toNat / 64 % 64 - 0x80) * 64 + (0x80 + c.toNat % 64 - 0x80) =
              c.toNat from by omega]
            simp

theorem utf8_decode_encode (s : String) : utf8Decode (utf8Encode s) = some s := by
  unfold utf8Decode utf8Encode
  rw [utf8DecodeGo_encode s.data _ (Nat.le_refl _)]
  rfl

set_option maxRecDepth 8192 in
theorem utf8DecodeOne_inv (b : Nat) (rest : List Nat) (v len : Nat)
    (h : utf8DecodeOne (b :: rest) = some (v, len)) :
    (len = 1 ∧ b < 0x80 ∧ v = b) ∨
    (∃ b1 r, rest = b1 :: r ∧ len = 2 ∧ 0xC2 ≤ b ∧ b < 0xE0 ∧
      0x80 ≤ b1 ∧ b1 < 0xC0 ∧ v = (b - 0xC0) * 64 + (b1 - 0x80)) ∨
    (∃ b1 b2 r, rest = b1 :: b2 :: r ∧ len = 3 ∧ 0xE0 ≤ b ∧ b < 0xF0 ∧
      0x80 ≤ b1 ∧ b1 < 0xC0 ∧ 0x80 ≤ b2 ∧ b2 < 0xC0 ∧
      0x800 ≤ v ∧ ¬(0xD800 ≤ v ∧ v < 0xE000) ∧
      v = (b - 0xE0) * 4096 + (b1 - 0x80) * 64 + (b2 - 0x80)) ∨
    (∃ b1 b2 b3 r, rest = b1 :: b2 :: b3 :: r ∧ len = 4 ∧ 0xF0 ≤ b ∧ b < 0xF5 ∧
      0x80 ≤ b1 ∧ b1 < 0xC0 ∧ 0x80 ≤ b2 ∧ b2 < 0xC0 ∧ 0x80 ≤ b3 ∧ b3 < 0xC0 ∧
      0x10000 ≤ v ∧ v < 0x110000 ∧
      v = (b - 0xF0) * 0x40000 + (b1 - 0x80) * 4096 + (b2 - 0x80) * 64 + (b3 - 0x80)) := by
  simp only [utf8DecodeOne] at h
  by_cases c1 : b < 0x80
  · rw [if_pos c1] at h
    injection h with hp
    cases hp
    exact Or.inl ⟨rfl, c1, rfl⟩
  · rw [if_neg c1] at h
    by_cases c2 : b < 0xC2
    · rw [if_pos c2] at h
      cases h
    · rw [if_neg c2] at h
      by_cases c3 : b < 0xE0
      · rw [if_pos c3] at h
        split at h
        next b1 tl =>
          by_cases c4 : 0x80 ≤ b1 ∧ b1 < 0xC0
          · rw [if_pos c4] at h
            injection h with hp
            cases hp
            exact Or.inr (Or.inl ⟨b1, tl, rfl, rfl, by omega, c3, c4.1, c4.2, rfl⟩)
          · rw [if_neg c4] at h
            cases h
        next => cases h
      · rw [if_neg c3] at h
        by_cases c4 : b < 0xF0
        · rw [if_pos c4] at h
          split at h
          next b1 b2 tl =>
            by_cases c5 : (0x80 ≤ b1 ∧ b1 < 0xC0) ∧ (0x80 ≤ b2 ∧ b2 < 0xC0)
            · rw [if_pos c5] at h
              by_cases c6 : (b - 0xE0) * 4096 + (b1 - 0x80) * 64 + (b2 - 0x80) < 0x800 ∨
                  (0xD800 ≤ (b - 0xE0) * 4096 + (b1 - 0x80) * 64 + (b2 - 0x80) ∧
                   (b - 0xE0) * 4096 + (b1 - 0x80) * 64 + (b2 - 0x80) < 0xE000)
              · rw [if_pos c6] at h
                cases h
              · rw [if_neg c6] at h
                injection h with hp
                cases hp
                refine Or.inr (Or.inr (Or.inl ⟨b1, b2, tl, rfl, rfl, by omega, c4,
                  c5.1.1, c5.1.2, c5.2.1, c5.2.2, by omega, ?_, rfl⟩))
                intro hcon
                exact c6 (Or.inr hcon)
            · rw [if_neg c5] at h
              cases h
          next => cases h
        · by_cases c5 : b < 0xF5
          · rw [if_neg c4, if_pos c5] at h
            split at h
            next b1 b2 b3 tl =>
              by_cases c6 : (0x80 ≤ b1 ∧ b1 < 0xC0) ∧ (0x80 ≤ b2 ∧ b2 < 0xC0) ∧
                  (0x80 ≤ b3 ∧ b3 < 0xC0)
              · rw [if_pos c6] at h
                by_cases c7 : (b - 0xF0) * 0x40000 + (b1 - 0x80) * 4096 +
                    (b2 - 0x80) * 64 + (b3 - 0x80) < 0x10000 ∨
                    0x110000 ≤ (b - 0xF0) * 0x40000 + (b1 - 0x80) * 4096 +
                      (b2 - 0x80) * 64 + (b3 - 0x80)
                · rw [if_pos c7] at h
                  cases h
                · rw [if_neg c7] at h
                  injection h with hp
                  cases hp
                  exact Or.inr (Or.inr (Or.inr ⟨b1, b2, b3, tl, rfl, rfl, by omega, c5,
                    c6.1.1, c6.1.2, c6.2.1.1, c6.2.1.2, c6.2.2.1, c6.2.2.2,
                    by omega, by omega, rfl⟩))
              · rw [if_neg c6] at h
                cases h
            next => cases h
          · rw [if_neg c4, if_neg c5] at h
            cases h

theorem utf8DecodeGo_inv : ∀ (f : Nat) (bs : List Nat) (cs : List Char),
    utf8DecodeGo f bs = some cs → (cs.map utf8EncodeChar).flatten = bs := by
  intro f
  induction f with
  | zero =>
    intro bs cs h
    cases bs with
    | nil =>
      rw [utf8DecodeGo_nil] at h
      injection h with h2
      rw [← h2]
      rfl
    | cons b r =>
      rw [show utf8DecodeGo 0 (b :: r) = none from rfl] at h
      cases h
  | succ f ih =>
    intro bs cs h
    cases bs with
    | nil =>
      rw [utf8DecodeGo_nil] at h
      injection h with h2
      rw [← h2]
      rfl
    | cons b r =>
      cases hone : utf8DecodeOne (b :: r) with
      | none =>
        rw [utf8DecodeGo_none f b r hone] at h
        cases h
      | some pr =>
        obtain ⟨v, len⟩ := pr
        rw [utf8DecodeGo_some f b r v len hone] at h
        rw [Option.map_eq_some'] at h
        obtain ⟨cs', hcs', rfl⟩ := h
        have hrec := ih _ _ hcs'
        rw [List.map_cons, List.flatten_cons, hrec]
        rcases utf8DecodeOne_inv b r v len hone with
          ⟨hl, hb, hv⟩ |
          ⟨b1, r', hr, hl, hb1, hb2, hc1, hc2, hv⟩ |
          ⟨b1, b2, r', hr, hl, hb1, hb2, hc1, hc2, hc3, hc4, hlo, hsur, hv⟩ |
          ⟨b1, b2, b3, r', hr, hl, hb1, hb2, hc1, hc2, hc3, hc4, hc5, hc6, hlo, hhi, hv⟩
        · have ht := toNat_ofNat_valid v (Or.inl (by omega))
          have e : utf8EncodeChar (Char.ofNat v) = [b] := by
            unfold utf8EncodeChar
            rw [ht, if_pos (by omega)]
            rw [hv]
          rw [e, hl]
          rfl
        · have ht := toNat_ofNat_valid v (Or.inl (by omega))
          have e : utf8EncodeChar (Char.ofNat v) = [b, b1] := by
            unfold utf8EncodeChar
            rw [ht, if_neg (by omega), if_pos (by omega)]
            rw [show 0xC0 + v / 64 = b from by omega,
              show 0x80 + v % 64 = b1 from by omega]
          rw [e, hl, hr]
          rfl
        · have hval : v.isValidChar := by
            rcases Nat.lt_or_ge v 0xD800 with hlt | hge
            · exact Or.inl hlt
            · refine Or.inr ⟨by omega, by omega⟩
          have ht := toNat_ofNat_valid v hval
          have e : utf8EncodeChar (Char.ofNat v) = [b, b1, b2] := by
            unfold utf8EncodeChar
            rw [ht, if_neg (by omega), if_neg (by omega), if_pos (by omega)]
            rw [show 0xE0 + v / 4096 = b from by omega,
              show 0x80 + (v / 64) % 64 = b1 from by omega,
              show 0x80 + v % 64 = b2 from by omega]
          rw [e, hl, hr]
          rfl
        · have ht := toNat_ofNat_valid v (Or.inr ⟨by omega, by omega⟩)
          have e : utf8EncodeChar (Char.ofNat v) = [b, b1, b2, b3] := by
            unfold utf8EncodeChar
            rw [ht, if_neg (by omega), if_neg (by omega), if_neg (by omega)]
            rw [show 0xF0 + v / 0x40000 = b from by omega,
              show 0x80 + (v / 4096) % 64 = b1 from by omega,
              show 0x80 + (v / 64) % 64 = b2 from by omega,
              show 0x80 + v % 64 = b3 from by omega]
          rw [e, hl, hr]
          rfl

theorem utf8_encode_decode (bs : List Nat) (t : String) (h : utf8Decode bs = some t) :
    utf8Encode t = bs := by
  unfold utf8Decode at h
  rw [Option.map_eq_some'] at h
  obtain ⟨cs, hgo, ht⟩ := h
  have := utf8DecodeGo_inv bs.length bs cs hgo
  rw [← ht]
  exact this

/-- Relation between a character of the original text and the character
at the same position after `a:b` occurrences were rewritten to `a-b`:
equal, or a colon turned into a hyphen. -/
def colonDash (a b : Char) : Prop := a = b ∨ (a = ':' ∧ b = '-')

theorem cd_pyIsSpace {a b : Char} (h : colonDash a b) : pyIsSpace a = pyIsSpace b := by
  rcases h with rfl | ⟨rfl, rfl⟩
  · rfl
  · decide

theorem cd_isWordCh {a b : Char} (h : colonDash a b) : isWordCh a = isWordCh b := by
  rcases h with rfl | ⟨rfl, rfl⟩
  · rfl
  · decide

theorem cd_beq {a b : Char} (x : Char) (hx1 : x ≠ ':') (hx2 : x ≠ '-')
    (h : colonDash a b) : (a == x) = (b == x) := by
  rcases h with rfl | ⟨rfl, rfl⟩
  · rfl
  · have h1 : (':' == x) = false := beq_eq_false_iff_ne.mpr (fun e => hx1 e.symm)
    have h2 : ('-' == x) = false := beq_eq_false_iff_ne.mpr (fun e => hx2 e.symm)
    rw [h1, h2]

theorem cd_dropWhile (p : Char → Bool) (hp : ∀ a b, colonDash a b → p a = p b) :
    ∀ {s t : List Char}, List.Forall₂ colonDash s t →
      List.Forall₂ colonDash (s.dropWhile p) (t.dropWhile p) := by
  intro s t h
  induction h with
  | nil => exact List.Forall₂.nil
  | cons hab hrest ih =>
    rename_i a b s' t'
    rw [List.dropWhile_cons, List.dropWhile_cons, ← hp a b hab]
    by_cases hpa : p a = true
    · rw [if_pos hpa, if_pos hpa]
      exact ih
    · rw [if_neg hpa, if_neg hpa]
      exact List.Forall₂.cons hab hrest

theorem cd_headIsGt {s t : List Char} (h : List.Forall₂ colonDash s t) :
    headIs '>' s = headIs '>' t := by
  cases h with
  | nil => rfl
  | cons hab hrest =>
    simp only [headIs]
    exact cd_beq '>' (by decide) (by decide) hab

theorem cd_laFn : ∀ (f : Nat) (mode : Bool) (s t : List Char),
    List.Forall₂ colonDash s t → laFn f mode s = laFn f mode t := by
  intro f
  induction f with
  | zero => intro mode s t _; rfl
  | succ f ih =>
    intro mode s t h
    cases mode
    · cases h with
      | nil => rfl
      | cons hab hrest =>
        rename_i a b s' t'
        have e1 : (a != '\n') = (b != '\n') := by
          show (!(a == '\n')) = !(b == '\n')
          rw [cd_beq '\n' (by decide) (by decide) hab]
        show ((a != '\n') && _) = ((b != '\n') && _)
        rw [e1]
        congr 1
        rw [ih false s' t' hrest]
        congr 1
        cases hrest with
        | nil => rfl
        | cons hab2 hrest2 =>
          rename_i d e s'' t''
          show ((d == '"') && (headIs '>' (s''.dropWhile pyIsSpace) || laFn f true s'')) =
            ((e == '"') && (headIs '>' (t''.dropWhile pyIsSpace) || laFn f true t''))
          rw [cd_beq '"' (by decide) (by decide) hab2,
            cd_headIsGt (cd_dropWhile pyIsSpace (fun x y => cd_pyIsSpace) hrest2),
            ih true s'' t'' hrest2]
    · show (headIs '>' s || _) = (headIs '>' t || _)
      rw [cd_headIsGt h, h.length_eq]
      congr 1
      have hd1 := cd_dropWhile pyIsSpace (fun x y => cd_pyIsSpace) h
      have hd2 := cd_dropWhile isWordCh (fun x y => cd_isWordCh) hd1
      rw [hd1.length_eq, hd2.length_eq]
      congr 1
      generalize hS : (s.dropWhile pyIsSpace).dropWhile isWordCh = S at hd2 ⊢
      generalize hT : (t.dropWhile pyIsSpace).dropWhile isWordCh = T at hd2 ⊢
      cases hd2 with
      | nil => rfl
      | cons hab hrest =>
        rename_i a b s' t'
        cases hrest with
        | nil => rfl
        | cons hab2 hrest2 =>
          rename_i d e s'' t''
          congr 1
          show ((a == '=') && (d == '"') && laFn f false s'') =
            ((b == '=') && (e == '"') && laFn f false t'')
          rw [cd_beq '=' (by decide) (by decide) hab,
            cd_beq '"' (by decide) (by decide) hab2,
            ih false s'' t'' hrest2]

theorem cd_lookahead {s t : List Char} (h : List.Forall₂ colonDash s t) :
    lookahead s = lookahead t := by
  unfold lookahead
  rw [h.length_eq]
  exact cd_laFn _ true s t h

theorem cd_lbBlocked : ∀ {p q : List Char}, List.Forall₂ colonDash p q →
    lbBlocked p = lbBlocked q := by
  intro p q h
  cases h with
  | nil => rfl
  | cons h1 hrest =>
    cases hrest with
    | nil => rfl
    | cons h2 hrest2 =>
      cases hrest2 with
      | nil => rfl
      | cons h3 hrest3 =>
        show (_ && _ && _ : Bool) = (_ && _ && _ : Bool)
        rw [cd_beq '/' (by decide) (by decide) h1,
          cd_beq '<' (by decide) (by decide) h2,
          cd_beq '\\' (by decide) (by decide) h3]

theorem occursIn_tail (p : List Char) (c : Char) (t : List Char)
    (h : occursIn p (c :: t) = false) : occursIn p t = false := by
  rw [occursIn_cons] at h
  exact (Bool.or_eq_false_iff.mp h).2

theorem subGo_no_occ (old nw : List Char) :
    ∀ (rest pre : List Char) (count : Nat),
      occursIn old rest = false → subGo old nw rest pre count 0 = rest := by
  intro rest
  induction rest with
  | nil => intro pre count _; exact subGo_nil old nw pre count 0
  | cons c t ih =>
    intro pre count h
    rw [occursIn_cons] at h
    obtain ⟨h1, h2⟩ := Bool.or_eq_false_iff.mp h
    rw [subGo_zero, if_neg (by simp [h1])]
    rw [ih (c :: pre) count h2]

theorem subGo_head (d : Char) (t2 pre : List Char) (count : Nat) :
    (∃ X, subGo ['a', ':', 'b'] ['a', '-', 'b'] (d :: t2) pre count 0 =
      'a' :: '-' :: 'b' :: X) ∨
    subGo ['a', ':', 'b'] ['a', '-', 'b'] (d :: t2) pre count 0 =
      d :: subGo ['a', ':', 'b'] ['a', '-', 'b'] t2 (d :: pre) count 0 := by
  rw [subGo_zero]
  split
  · exact Or.inl ⟨_, rfl⟩
  · exact Or.inr rfl

theorem cd_subGo : ∀ (n : Nat) (rest pre : List Char) (count : Nat), rest.length ≤ n →
    List.Forall₂ colonDash rest (subGo ['a', ':', 'b'] ['a', '-', 'b'] rest pre count 0) := by
  intro n
  induction n with
  | zero =>
    intro rest pre count h
    cases rest with
    | nil => rw [subGo_nil]; exact .nil
    | cons c t => simp at h
  | succ n ih =>
    intro rest pre count h
    cases rest with
    | nil => rw [subGo_nil]; exact .nil
    | cons c t =>
      rw [subGo_zero]
      split
      · next hC =>
        simp only [Bool.and_eq_true, decide_eq_true_eq] at hC
        obtain ⟨⟨⟨hcnt, hpfx⟩, hlb⟩, hla⟩ := hC
        cases t with
        | nil => simp [pfx_cons, pfx_cons_nil] at hpfx
        | cons d t2 =>
        cases t2 with
        | nil => simp [pfx_cons, pfx_cons_nil] at hpfx
        | cons e t3 =>
        rw [pfx_cons, pfx_cons, pfx_cons] at hpfx
        simp only [Bool.and_eq_true, beq_iff_eq, pfx_nil, and_true] at hpfx
        obtain ⟨hc, hd, he⟩ := hpfx
        subst hc
        subst hd
        subst he
        rw [show ((['a', ':', 'b'] : List Char).length - 1) = 2 from rfl]
        rw [subGo_succ, subGo_succ]
        refine .cons (.inl rfl) (.cons (.inr ⟨rfl, rfl⟩) (.cons (.inl rfl) ?_))
        refine ih t3 _ _ ?_
        simp only [List.length_cons] at h
        omega
      · next hC =>
        refine .cons (.inl rfl) (ih t (c :: pre) count ?_)
        simp only [List.length_cons] at h
        omega

theorem subGo_roundtrip : ∀ (n : Nat) (rest pre1 pre2 : List Char) (count : Nat),
    rest.length ≤ n →
    List.Forall₂ colonDash pre1 pre2 →
    occursIn ['a', '-', 'b'] rest = false →
    subGo ['a', '-', 'b'] ['a', ':', 'b']
      (subGo ['a', ':', 'b'] ['a', '-', 'b'] rest pre1 count 0) pre2 count 0 = rest := by
  intro n
  induction n with
  | zero =>
    intro rest pre1 pre2 count hlen hpre hocc
    cases rest with
    | nil => rw [subGo_nil, subGo_nil]
    | cons c t => simp at hlen
  | succ n ih =>
    intro rest pre1 pre2 count hlen hpre hocc
    cases rest with
    | nil => rw [subGo_nil, subGo_nil]
    | cons c t =>
      rw [subGo_zero]
      split
      · next hC =>
        simp only [Bool.and_eq_true, decide_eq_true_eq] at hC
        obtain ⟨⟨⟨hcnt, hpfx⟩, hlb⟩, hla⟩ := hC
        cases t with
        | nil => simp [pfx_cons, pfx_cons_nil] at hpfx
        | cons d t2 =>
        cases t2 with
        | nil => simp [pfx_cons, pfx_cons_nil] at hpfx
        | cons e t3 =>
        rw [pfx_cons, pfx_cons, pfx_cons] at hpfx
        simp only [Bool.and_eq_true, beq_iff_eq, pfx_nil, and_true] at hpfx
        obtain ⟨hc, hd, he⟩ := hpfx
        subst hc
        subst hd
        subst he
        rw [show ((['a', ':', 'b'] : List Char).length - 1) = 2 from rfl]
        rw [subGo_succ, subGo_succ]
        simp only [List.cons_append, List.nil_append]
        have hla2 : lookahead t3 = true := hla
        have hlb0 : lbBlocked pre1 = false := by simpa using hlb
        have hcd : List.Forall₂ colonDash t3
            (subGo ['a', ':', 'b'] ['a', '-', 'b'] t3 ('b' :: ':' :: 'a' :: pre1)
              (count - 1) 0) :=
          cd_subGo t3.length t3 _ _ (Nat.le_refl _)
        rw [subGo_zero]
        split
        · next hC2 =>
          rw [show ((['a', '-', 'b'] : List Char).length - 1) = 2 from rfl]
          rw [subGo_succ, subGo_succ]
          simp only [List.cons_append, List.nil_append, List.cons.injEq, true_and]
          refine ih t3 ('b' :: ':' :: 'a' :: pre1) ('b' :: '-' :: 'a' :: pre2) (count - 1)
            ?_ ?_ ?_
          · simp only [List.length_cons] at hlen
            omega
          · exact .cons (.inl rfl) (.cons (.inr ⟨rfl, rfl⟩) (.cons (.inl rfl) hpre))
          · exact occursIn_tail _ _ _ (occursIn_tail _ _ _ (occursIn_tail _ _ _ hocc))
        · next hC2 =>
          refine absurd ?_ hC2
          simp only [Bool.and_eq_true, decide_eq_true_eq]
          refine ⟨⟨⟨hcnt, ?_⟩, ?_⟩, ?_⟩
          · simp [pfx_cons, pfx_nil]
          · have : lbBlocked pre2 = false := by rw [← cd_lbBlocked hpre]; exact hlb0
            simp [this]
          · simp only [List.length_cons, List.length_nil, List.drop_succ_cons,
              List.drop_zero]
            rw [← cd_lookahead hcd]
            exact hla2
      · next hC =>
        have hnm : pfx ['a', '-', 'b']
            (c :: subGo ['a', ':', 'b'] ['a', '-', 'b'] t (c :: pre1) count 0) = false := by
          by_contra hcon
          rw [Bool.not_eq_false] at hcon
          rw [pfx_cons] at hcon
          simp only [Bool.and_eq_true, beq_iff_eq] at hcon
          obtain ⟨hca, hrest⟩ := hcon
          cases t with
          | nil =>
            rw [subGo_nil, pfx_cons_nil] at hrest
            simp at hrest
          | cons d t2 =>
            rcases subGo_head d t2 (c :: pre1) count with ⟨X, hX⟩ | hX
            · rw [hX, pfx_cons] at hrest
              simp only [Bool.and_eq_true, beq_iff_eq] at hrest
              exact absurd hrest.1 (by decide)
            · rw [hX, pfx_cons] at hrest
              simp only [Bool.and_eq_true, beq_iff_eq] at hrest
              obtain ⟨hdd, hrest2⟩ := hrest
              cases t2 with
              | nil =>
                rw [subGo_nil, pfx_cons_nil] at hrest2
                simp at hrest2
              | cons e t3 =>
                rcases subGo_head e t3 (d :: c :: pre1) count with ⟨Y, hY⟩ | hY
                · rw [hY, pfx_cons] at hrest2
                  simp only [Bool.and_eq_true, beq_iff_eq] at hrest2
                  exact absurd hrest2.1 (by decide)
                · rw [hY, pfx_cons] at hrest2
                  simp only [Bool.and_eq_true, beq_iff_eq, pfx_nil, and_true] at hrest2
                  have hp : pfx ['a', '-', 'b'] (c :: d :: e :: t3) = true := by
                    rw [← hca, ← hdd, ← hrest2]
                    simp [pfx_cons, pfx_nil]
                  rw [occursIn_of_pfx _ _ hp] at hocc
                  simp at hocc
        rw [subGo_zero]
        split
        · next hC2 =>
          simp only [Bool.and_eq_true] at hC2
          obtain ⟨⟨⟨_, hp⟩, _⟩, _⟩ := hC2
          rw [hnm] at hp
          simp at hp
        · next hC2 =>
          simp only [List.cons.injEq, true_and]
          refine ih t (c :: pre1) (c :: pre2) count ?_ (.cons (.inl rfl) hpre) ?_
          · simp only [List.length_cons] at hlen
            omega
          · exact occursIn_tail _ _ _ hocc

/-- C5: `TagReplacer.replace` is idempotent on any source whose decoded
document has zero occurrences of `oldTag` (the result is the input,
unchanged), and for every source whose decoded document does not already
contain the alias tag `a-b`, applying `replace(·, "a-b", "a:b")` to the
output of `replace(·, "a:b", "a-b")` restores the original source
(sanitize/restore round-trip). -/
theorem c5_sanitize_roundtrip :
    (∀ (obj : Obj) (old new t : String),
      validateTagName old = true → validateTagName new = true →
      trDecode obj = .ok t → objWf obj →
      occursIn old.data t.data = false →
      tagReplace obj old new = .ok obj) ∧
    (∀ (obj : Obj) (t : String),
      trDecode obj = .ok t → objWf obj →
      occursIn ("a-b" : String).data t.data = false →
      (tagReplace obj "a:b" "a-b").bind
        (fun o => tagReplace o "a-b" "a:b") = .ok obj) := by
  constructor
  · intro obj old new t hold hnew hdec hwf hocc
    have hsub : subTags old new t = t := by
      unfold subTags
      rw [subGo_no_occ old.data new.data t.data [] 8 hocc]
    have h1 : tagReplace obj old new =
        (trDecode obj).map (fun u => trEncodeAs (subTags old new u) obj) := by
      unfold tagReplace
      rw [hold, hnew]
      rfl
    cases obj with
    | str s =>
      simp only [trDecode, Except.ok.injEq] at hdec
      subst hdec
      rw [h1]
      show Except.ok (trEncodeAs (subTags old new s) (Obj.str s)) = Except.ok (Obj.str s)
      rw [hsub]
      rfl
    | bytes b =>
      simp only [trDecode] at hdec
      cases hb : utf8Decode b with
      | none =>
        rw [hb] at hdec
        simp at hdec
      | some u =>
        rw [hb] at hdec
        replace hdec : u = t := by
          have h' : Except.ok (ε := PyErr) u = Except.ok t := hdec
          injection h'
        subst hdec
        have hd : trDecode (Obj.bytes b) = Except.ok u := by
          simp only [trDecode]
          rw [hb]
        rw [h1, hd]
        show Except.ok (trEncodeAs (subTags old new u) (Obj.bytes b)) =
          Except.ok (Obj.bytes b)
        rw [hsub]
        show Except.ok (Obj.bytes (utf8Encode u)) = Except.ok (Obj.bytes b)
        rw [utf8_encode_decode b u hb]
    | textResponse tt e b =>
      simp only [trDecode, Except.ok.injEq] at hdec
      subst hdec
      have hwf2 : b = utf8Encode tt := hwf
      rw [h1]
      show Except.ok (trEncodeAs (subTags old new tt) (Obj.textResponse tt e b)) =
        Except.ok (Obj.textResponse tt e b)
      rw [hsub]
      show Except.ok (Obj.textResponse tt e (utf8Encode tt)) =
        Except.ok (Obj.textResponse tt e b)
      rw [hwf2]
    | rawResponse b => simp [trDecode] at hdec
    | other => simp [trDecode] at hdec
  · intro obj t hdec hwf hocc
    have hv1 : validateTagName "a:b" = true := by decide
    have hv2 : validateTagName "a-b" = true := by decide
    have hs2 : subTags "a-b" "a:b" (subTags "a:b" "a-b" t) = t := by
      unfold subTags
      rw [show (("a:b" : String).data) = ['a', ':', 'b'] from rfl,
        show (("a-b" : String).data) = ['a', '-', 'b'] from rfl,
        string_mk_data]
      rw [subGo_roundtrip t.data.length t.data [] [] 8 (Nat.le_refl _) .nil hocc]
    have h1 : tagReplace obj "a:b" "a-b" =
        (trDecode obj).map (fun u => trEncodeAs (subTags "a:b" "a-b" u) obj) := by
      unfold tagReplace
      rw [hv1, hv2]
      rfl
    have h2 : ∀ (o : Obj), tagReplace o "a-b" "a:b" =
        (trDecode o).map (fun u => trEncodeAs (subTags "a-b" "a:b" u) o) := by
      intro o
      unfold tagReplace
      rw [hv1, hv2]
      rfl
    cases obj with
    | str s =>
      simp only [trDecode, Except.ok.injEq] at hdec
      subst hdec
      rw [h1]
      show tagReplace (Obj.str (subTags "a:b" "a-b" s)) "a-b" "a:b" =
        Except.ok (Obj.str s)
      rw [h2]
      show Except.ok (trEncodeAs (subTags "a-b" "a:b" (subTags "a:b" "a-b" s))
          (Obj.str (subTags "a:b" "a-b" s))) = Except.ok (Obj.str s)
      rw [hs2]
      rfl
    | bytes b =>
      simp only [trDecode] at hdec
      cases hb : utf8Decode b with
      | none =>
        rw [hb] at hdec
        simp at hdec
      | some u =>
        rw [hb] at hdec
        replace hdec : u = t := by
          have h' : Except.ok (ε := PyErr) u = Except.ok t := hdec
          injection h'
        subst hdec
        have hd : trDecode (Obj.bytes b) = Except.ok u := by
          simp only [trDecode]
          rw [hb]
        rw [h1, hd]
        show tagReplace (Obj.bytes (utf8Encode (subTags "a:b" "a-b" u))) "a-b" "a:b" =
          Except.ok (Obj.bytes b)
        have hd2 : trDecode (Obj.bytes (utf8Encode (subTags "a:b" "a-b" u))) =
            Except.ok (subTags "a:b" "a-b" u) := by
          simp only [trDecode]
          rw [utf8_decode_encode]
        rw [h2, hd2]
        show Except.ok (trEncodeAs (subTags "a-b" "a:b" (subTags "a:b" "a-b" u))
            (Obj.bytes (utf8Encode (subTags "a:b" "a-b" u)))) = Except.ok (Obj.bytes b)
        rw [hs2]
        show Except.ok (Obj.bytes (utf8Encode u)) = Except.ok (Obj.bytes b)
        rw [utf8_encode_decode b u hb]
    | textResponse tt e b =>
      simp only [trDecode, Except.ok.injEq] at hdec
      subst hdec
      have hwf2 : b = utf8Encode tt := hwf
      rw [h1]
      show tagReplace (Obj.textResponse (subTags "a:b" "a-b" tt) e
          (utf8Encode (subTags "a:b" "a-b" tt))) "a-b" "a:b" =
        Except.ok (Obj.textResponse tt e b)
      rw [h2]
      show Except.ok (trEncodeAs (subTags "a-b" "a:b" (subTags "a:b" "a-b" tt))
          (Obj.textResponse (subTags "a:b" "a-b" tt) e
            (utf8Encode (subTags "a:b" "a-b" tt)))) =
        Except.ok (Obj.textResponse tt e b)
      rw [hs2]
      show Except.ok (Obj.textResponse tt e (utf8Encode tt)) =
        Except.ok (Obj.textResponse tt e b)
      rw [hwf2]
    | rawResponse b => simp [trDecode] at hdec
    | other => simp [trDecode] at hdec

theorem c5_witness :
    tagReplace (Obj.str "<c>x</c>") "q" "r" = .ok (Obj.str "<c>x</c>") ∧
    (tagReplace (Obj.str "<a:b x=\"1\">t</a:b>") "a:b" "a-b").bind
      (fun o => tagReplace o "a-b" "a:b") = .ok (Obj.str "<a:b x=\"1\">t</a:b>") :=
  ⟨c5_sanitize_roundtrip.1 (Obj.str "<c>x</c>") "q" "r" "<c>x</c>"
      (by decide) (by decide) rfl trivial (by decide),
    c5_sanitize_roundtrip.2 (Obj.str "<a:b x=\"1\">t</a:b>") "<a:b x=\"1\">t</a:b>"
      rfl trivial (by decide)⟩
